import Mathlib

/-!
# Verification of the lazybeads presentation/interaction engine

A shallow embedding of the core logic of the `lazybeads` terminal issue
viewer (Go), together with proofs of the specified properties.

Go strings are modelled as `List Char` (`Str`); Go `time.Time` values are
modelled as integer timestamps; Go `map[string]bool` sets are modelled as
`Finset Str` (membership = "mapped to `true`", lookup of an absent key
yields `false`, exactly as in Go).
-/

set_option maxHeartbeats 1600000
set_option maxRecDepth 8000

namespace Lazybeads

/-- Go strings, modelled as lists of characters. -/
abbrev Str := List Char

/-- Literal helper: the character list of a Lean string literal. -/
def str (s : String) : Str := s.data

/-- `internal/models.Task` (the fields consulted by the embedded code:
identifier, title, status, priority, created/updated timestamps, the
optional closed timestamp and the list of blocking issue ids). -/
structure Task where
  id        : Str
  title     : Str
  status    : Str
  priority  : Int
  createdAt : Int
  updatedAt : Int
  closedAt  : Option Int
  blockedBy : List Str
deriving DecidableEq, Repr

/-- `models.Task.IsBlocked`: true iff the task has blockers. -/
def Task.IsBlocked (t : Task) : Bool := decide (0 < t.blockedBy.length)

/-! ## `internal/models`: identifier hierarchy (ParentID, Depth, IsDirectChildOf) -/

/-- Index of the last occurrence of `'.'` in `l` (`strings.LastIndex l "."`,
with `none` playing the role of Go's `-1`). -/
def lastDotIdx : Str → Option Nat
  | [] => none
  | c :: rest =>
    match lastDotIdx rest with
    | some i => some (i + 1)
    | none => if c = '.' then some 0 else none

/-- `models.ParentID`: the substring before the last dot, or `""` if the
identifier contains no dot (`id[:strings.LastIndex(id, ".")]`). -/
def ParentID (id : Str) : Str :=
  match lastDotIdx id with
  | none => []
  | some i => id.take i

/-- `models.Depth`: `strings.Count(id, ".")`, the number of dots. -/
def Depth (id : Str) : Nat := id.count '.'

/-- `strings.HasPrefix h p`: `p` is a prefix of `h`. -/
def hasPre : Str → Str → Bool
  | _, [] => true
  | [], _ :: _ => false
  | h :: hs, c :: cs => h = c && hasPre hs cs

/-- `models.IsDirectChildOf`: `childID` starts with `parentID + "."` and the
remainder after that prefix contains no further dot. -/
def IsDirectChildOf (childID parentID : Str) : Bool :=
  if hasPre childID (parentID ++ ['.']) then
    decide ('.' ∉ childID.drop (parentID.length + 1))
  else
    false

/-! ## Board columns (`app.go getBoardColumns`)

Column indices: 0 = Blocked, 1 = Open, 2 = Ready, 3 = In Progress, 4 = Done.
The `readyIDs map[string]bool` is modelled as a boolean predicate on ids. -/

/-- The column a task is routed to by the `switch t.Status` in
`getBoardColumns` (`none` when the status is not one of the three known
values: such a task is appended to no column). -/
def boardColumnIndex (ready : Str → Bool) (t : Task) : Option (Fin 5) :=
  if t.status = str "open" then
    if t.IsBlocked then some 0
    else if ready t.id then some 2
    else some 1
  else if t.status = str "in_progress" then some 3
  else if t.status = str "closed" then some 4
  else none

/-- `getBoardColumns`: the single append-loop routes each task to the column
given by `boardColumnIndex`, preserving snapshot order; column `i` is
therefore the order-preserving filter of the snapshot by that predicate. -/
def getBoardColumns (tasks : List Task) (ready : Str → Bool) (i : Fin 5) :
    List Task :=
  tasks.filter (fun t => boardColumnIndex ready t = some i)

/-! ## Filter engine (`app.go distributeTasks`) -/

/-- The preset filter mode (`FilterAll`, `FilterOpen`, `FilterClosed`,
`FilterReady`). -/
inductive FilterMode where
  | all | openOnly | closedOnly | readyOnly
deriving DecidableEq, Repr

/-- The sort mode (`SortDefault`, `SortCreatedAsc`, `SortCreatedDesc`,
`SortPriority`, `SortUpdated`). -/
inductive SortMode where
  | default | createdAsc | createdDesc | priorityOnly | updated
deriving DecidableEq, Repr

/-- `strings.ToLower`. -/
def toLowerStr (s : Str) : Str := s.map Char.toLower

/-- `strings.Contains hay sub`. -/
def strContains : Str → Str → Bool
  | [], sub => hasPre [] sub
  | h :: hs, sub => hasPre (h :: hs) sub || strContains hs sub

/-- The text-filter test of `distributeTasks`: keep the task iff the lowered
query is empty, or is contained in the lowered title or the lowered id. -/
def passesTextQuery (q : Str) (t : Task) : Bool :=
  let fl := toLowerStr q
  fl.isEmpty || strContains (toLowerStr t.title) fl
    || strContains (toLowerStr t.id) fl

/-- The quick-filter switch of `distributeTasks` (a task `continue`s past the
switch iff this returns `true`). -/
def passesFilterMode (mode : FilterMode) (t : Task) : Bool :=
  match mode with
  | .all => true
  | .openOnly => !decide (t.status = str "closed")
  | .closedOnly => decide (t.status = str "closed")
  | .readyOnly => !(decide (t.status = str "closed")
      || decide (0 < t.blockedBy.length))

/-- The bucket with the given status name produced by the distribution loop
of `distributeTasks` (text filter AND preset filter, then bucket by
status), in snapshot order. -/
def bucketTasks (tasks : List Task) (q : Str) (mode : FilterMode)
    (status : Str) : List Task :=
  tasks.filter (fun t =>
    passesTextQuery q t && passesFilterMode mode t && decide (t.status = status))

/-! ## Sorting (`sortTasks` / `sortClosedTasks` in `distributeTasks`)

Go sorts with `sort.Slice(tasks, less)`, which produces a permutation of the
input that is sorted with respect to `less` (pairwise: no later element is
strictly less than an earlier one).  We model it as an insertion sort with
the translated comparator, and prove exactly those two properties of it. -/

/-- The `less` closure of `sortTasks` for each sort mode. -/
def sortLess (mode : SortMode) (a b : Task) : Bool :=
  match mode with
  | .default =>
    if a.priority ≠ b.priority then decide (a.priority < b.priority)
    else decide (b.updatedAt < a.updatedAt)
  | .createdAsc => decide (a.createdAt < b.createdAt)
  | .createdDesc => decide (b.createdAt < a.createdAt)
  | .priorityOnly => decide (a.priority < b.priority)
  | .updated => decide (b.updatedAt < a.updatedAt)

/-- The `less` closure of `sortClosedTasks`: closed-timestamp descending,
`nil` timestamps last. -/
def lessClosed (a b : Task) : Bool :=
  match a.closedAt, b.closedAt with
  | none, none => false
  | none, some _ => false
  | some _, none => true
  | some ta, some tb => decide (tb < ta)

/-- Insertion step of the sort model. -/
def insertBy (less : Task → Task → Bool) (x : Task) : List Task → List Task
  | [] => [x]
  | y :: ys => if less x y then x :: y :: ys else y :: insertBy less x ys

/-- Sort model for `sort.Slice`. -/
def sortByLess (less : Task → Task → Bool) : List Task → List Task
  | [] => []
  | x :: xs => insertBy less x (sortByLess less xs)

/-- `sortTasks` for a given mode. -/
def sortTasks (mode : SortMode) : List Task → List Task :=
  sortByLess (sortLess mode)

/-- `sortClosedTasks`. -/
def sortClosedTasks : List Task → List Task :=
  sortByLess lessClosed

/-! ## Tree flattening (`app.go flattenTree`) -/

/-- The `taskItem` records produced by `flattenTree`. -/
structure TaskItem where
  task : Task
  depth : Nat
  hasChildren : Bool
  expanded : Bool
deriving DecidableEq, Repr

/-- The collapse-set `m.collapsedNodes map[string]bool`: the set of ids
mapped to `true` (lookup of any other id yields `false`). -/
abbrev CollapseSet := Finset Str

/-- The key under which `flattenTree` groups a task: its `ParentID` when
that parent id is nonempty and present in the bucket, else `""` (root). -/
def groupKey (ids : List Str) (t : Task) : Str :=
  let p := ParentID t.id
  if p ≠ [] ∧ p ∈ ids then p else []

/-- `childrenOf[pk]`: the bucket tasks grouped under key `pk`, in bucket
order (the Go loop appends in iteration order). -/
def childrenOf (tasks : List Task) (pk : Str) : List Task :=
  tasks.filter (fun t => groupKey (tasks.map Task.id) t = pk)

/-- The sibling group for key `pk` after the in-place `sortFn` pass of
`flattenTree` (Go sorts only the groups that exist in the map; an absent
key reads as `nil`, hence the empty group stays empty). -/
def sortedChildren (tasks : List Task) (sortFn : List Task → List Task)
    (pk : Str) : List Task :=
  match childrenOf tasks pk with
  | [] => []
  | l => sortFn l

/-- `hasChildren := len(childrenOf[t.ID]) > 0` (read after the sort pass). -/
def hcB (tasks : List Task) (sortFn : List Task → List Task) (t : Task) :
    Bool :=
  !(sortedChildren tasks sortFn t.id).isEmpty

/-- `collapsed := m.collapsedNodes[t.ID]`. -/
def collB (cs : CollapseSet) (t : Task) : Bool := decide (t.id ∈ cs)

/-- The DFS `walk` closure of `flattenTree`, with explicit fuel.  The Go
recursion terminates because a child's identifier is strictly longer than
its group key; the fuel used by `flattenTree` is shown sufficient below. -/
def walk (tasks : List Task) (sortFn : List Task → List Task)
    (cs : CollapseSet) : Nat → Str → Nat → List TaskItem
  | 0, _, _ => []
  | n + 1, pk, depth =>
    (sortedChildren tasks sortFn pk).flatMap (fun t =>
      ⟨t, depth, hcB tasks sortFn t, hcB tasks sortFn t && !collB cs t⟩ ::
        (if hcB tasks sortFn t && !collB cs t then
          walk tasks sortFn cs n t.id (depth + 1)
        else []))

/-- `flattenTree tasks cs sortFn`: group, sort sibling groups, then walk
from the root key at depth 0. -/
def flattenTree (tasks : List Task) (cs : CollapseSet)
    (sortFn : List Task → List Task) : List TaskItem :=
  walk tasks sortFn cs (tasks.length + 1) [] 0

/-- Number of bucket tasks whose id is strictly longer than `pk` — the
termination measure of the walk. -/
def keyMeasure (tasks : List Task) (pk : Str) : Nat :=
  (tasks.filter (fun u => decide (pk.length < u.id.length))).length

/-- The walk of the subtree rooted at key `pk`, with canonical (sufficient)
fuel. -/
def subFlatten (tasks : List Task) (sortFn : List Task → List Task)
    (cs : CollapseSet) (pk : Str) (d : Nat) : List TaskItem :=
  walk tasks sortFn cs (keyMeasure tasks pk + 1) pk d

/-- Reachability of a task from a group key through the `childrenOf`
grouping: the transitive-descendant relation of the reconstructed tree. -/
inductive Reach (tasks : List Task) : Str → Task → Prop where
  | base : ∀ {pk : Str} {u : Task}, u ∈ childrenOf tasks pk → Reach tasks pk u
  | step : ∀ {pk : Str} {t u : Task}, t ∈ childrenOf tasks pk →
      Reach tasks t.id u → Reach tasks pk u

/-- Reachability through expanded nodes only: `u` is emitted by the walk of
`pk` exactly when `ReachE` holds (proved below). -/
inductive ReachE (tasks : List Task) (sortFn : List Task → List Task)
    (cs : CollapseSet) : Str → Task → Prop where
  | base : ∀ {pk : Str} {u : Task}, u ∈ childrenOf tasks pk →
      ReachE tasks sortFn cs pk u
  | step : ∀ {pk : Str} {t u : Task}, t ∈ childrenOf tasks pk →
      (hcB tasks sortFn t && !collB cs t) = true →
      ReachE tasks sortFn cs t.id u → ReachE tasks sortFn cs pk u

/-- One block of the walk: the emitted item of `t` followed by its subtree
walk when expanded. -/
def walkBody (tasks : List Task) (sortFn : List Task → List Task)
    (cs : CollapseSet) (d : Nat) (t : Task) : List TaskItem :=
  ⟨t, d, hcB tasks sortFn t, hcB tasks sortFn t && !collB cs t⟩ ::
    (if hcB tasks sortFn t && !collB cs t then
      subFlatten tasks sortFn cs t.id (d + 1)
    else [])

/-! ## Board cursor state (`handleBoardKeys`, `ensureBoardColumnVisible`,
`handleBoardMouse` left-click) -/

/-- The board cursor: focused column, row in that column, and the leftmost
visible column offset (Go `int`s). -/
structure BoardNav where
  boardColumn : Int
  boardRow : Int
  boardColumnOffset : Int
deriving DecidableEq, Repr

/-- `visibleCols := m.width / minColWidth`, clamped to `[1, totalColumns]`
(`minColWidth = 30`, `totalColumns = 5`; the terminal width is nonnegative,
so Go's truncating division is `Nat` division). -/
def visibleCols (width : Nat) : Nat :=
  let v0 := width / 30
  let v1 := if v0 > 5 then 5 else v0
  if v1 < 1 then 1 else v1

/-- `ensureBoardColumnVisible`. -/
def ensureBoardColumnVisible (width : Nat) (st : BoardNav) : BoardNav :=
  let vc : Int := (visibleCols width : Int)
  let off1 := if st.boardColumn < st.boardColumnOffset then st.boardColumn
    else st.boardColumnOffset
  let off2 := if st.boardColumn ≥ off1 + vc then st.boardColumn - vc + 1
    else off1
  let off3 := if off2 < 0 then 0 else off2
  let off4 := if off3 > 5 - vc then 5 - vc else off3
  { st with boardColumnOffset := off4 }

/-- The `columnCount` closure of `handleBoardKeys`/`handleBoardMouse`:
`len(columns[col])` for a valid index, else 0. -/
def boardColumnCount (tasks : List Task) (ready : Str → Bool) (col : Int) :
    Nat :=
  if h : 0 ≤ col ∧ col < 5 then
    (getBoardColumns tasks ready ⟨col.toNat, by omega⟩).length
  else 0

/-- `handleBoardKeys`, `h`/left: previous column, row clamped to the new
column, then `ensureBoardColumnVisible`. -/
def boardMoveLeft (tasks : List Task) (ready : Str → Bool) (width : Nat)
    (st : BoardNav) : BoardNav :=
  if st.boardColumn > 0 then
    let c := st.boardColumn - 1
    let newCount : Int := (boardColumnCount tasks ready c : Int)
    let r1 := if st.boardRow ≥ newCount then newCount - 1 else st.boardRow
    let r2 := if r1 < 0 then 0 else r1
    ensureBoardColumnVisible width
      { st with boardColumn := c, boardRow := r2 }
  else st

/-- `handleBoardKeys`, `l`/right. -/
def boardMoveRight (tasks : List Task) (ready : Str → Bool) (width : Nat)
    (st : BoardNav) : BoardNav :=
  if st.boardColumn < 4 then
    let c := st.boardColumn + 1
    let newCount : Int := (boardColumnCount tasks ready c : Int)
    let r1 := if st.boardRow ≥ newCount then newCount - 1 else st.boardRow
    let r2 := if r1 < 0 then 0 else r1
    ensureBoardColumnVisible width
      { st with boardColumn := c, boardRow := r2 }
  else st

/-- `handleBoardKeys`, `k`/up. -/
def boardMoveUp (st : BoardNav) : BoardNav :=
  if st.boardRow > 0 then { st with boardRow := st.boardRow - 1 } else st

/-- `handleBoardKeys`, `j`/down. -/
def boardMoveDown (tasks : List Task) (ready : Str → Bool) (st : BoardNav) :
    BoardNav :=
  let count : Int := (boardColumnCount tasks ready st.boardColumn : Int)
  if st.boardRow < count - 1 then { st with boardRow := st.boardRow + 1 }
  else st

/-- `handleBoardKeys`, `g`/top. -/
def boardTop (st : BoardNav) : BoardNav :=
  if st.boardRow ≠ 0 then { st with boardRow := 0 } else st

/-- `handleBoardKeys`, `G`/bottom. -/
def boardBottom (tasks : List Task) (ready : Str → Bool) (st : BoardNav) :
    BoardNav :=
  let count : Int := (boardColumnCount tasks ready st.boardColumn : Int)
  if 0 < count ∧ st.boardRow ≠ count - 1 then
    { st with boardRow := count - 1 }
  else st

/-- The double-click memory (`lastClickTime`, `lastClickColumn`,
`lastClickRow`); the zero `time.Time{}` is modelled as timestamp 0. -/
structure ClickMemory where
  lastClickTime : Int
  lastClickColumn : Int
  lastClickRow : Int
deriving DecidableEq, Repr

/-- Result of a left click in board view: new cursor, new click memory, and
whether the confirm/open action fired (detail view opened). -/
structure ClickOutcome where
  nav : BoardNav
  mem : ClickMemory
  openDetail : Bool
deriving DecidableEq, Repr

/-- `doubleClickThreshold = 300 * time.Millisecond`, in ms. -/
def doubleClickThresholdMs : Int := 300

/-- The branch structure of the `tea.MouseButtonLeft` press case of
`handleBoardMouse`, applied to the computed `(actualColumn, clickedRow)`. -/
def boardClickCore (tasks : List Task) (ready : Str → Bool) (st : BoardNav)
    (mem : ClickMemory) (ac : Int) (cr : Nat) (now : Int) : ClickOutcome :=
  if 0 ≤ ac ∧ ac < 5 then
    let columnCount := boardColumnCount tasks ready ac
    if cr < columnCount ∧ ac = mem.lastClickColumn ∧
        (cr : Int) = mem.lastClickRow ∧
        now - mem.lastClickTime < doubleClickThresholdMs then
      ⟨⟨ac, (cr : Int), st.boardColumnOffset⟩,
        ⟨0, mem.lastClickColumn, mem.lastClickRow⟩, true⟩
    else if cr < columnCount then
      ⟨⟨ac, (cr : Int), st.boardColumnOffset⟩,
        ⟨now, ac, (cr : Int)⟩, false⟩
    else
      ⟨⟨ac, if 0 < columnCount then (columnCount : Int) - 1 else 0,
          st.boardColumnOffset⟩,
        ⟨0, mem.lastClickColumn, mem.lastClickRow⟩, false⟩
  else
    ⟨st, mem, false⟩

/-- The `tea.MouseButtonLeft` press case of `handleBoardMouse`.  Screen
coordinates are nonnegative, and `(mouseY - colTop - 1) / cardHeight` is
never negative in Go (the numerator is at least −2 and the truncating
division yields 0), so `Nat` subtraction/division agrees with Go.  The
zero `time.Time{}` used to reset `lastClickTime` is modelled as 0. -/
def handleBoardLeftClick (tasks : List Task) (ready : Str → Bool)
    (width : Nat) (st : BoardNav) (mem : ClickMemory)
    (mouseX mouseY : Nat) (now : Int) : ClickOutcome :=
  let vc := visibleCols width
  let colWidth := width / vc
  let colTop : Nat := 1
  let sc0 := mouseX / colWidth
  let sc := if sc0 ≥ vc then vc - 1 else sc0
  let actualColumn : Int := st.boardColumnOffset + (sc : Int)
  let cardHeight : Nat := 4
  let clickedRow : Nat := (mouseY - colTop - 1) / cardHeight
  boardClickCore tasks ready st mem actualColumn clickedRow now

/-- The plain (no-Ctrl) `tea.MouseButtonWheelUp` case of
`handleBoardMouse`: focus the column under the pointer and move the row up
by one; the row is NOT clamped to the new column's length.  (The
Ctrl+wheel and horizontal-wheel cases are verbatim the bodies of
`boardMoveLeft`/`boardMoveRight` and are covered by those embeddings.) -/
def boardWheelUpCore (st : BoardNav) (ac : Int) : BoardNav :=
  if 0 ≤ ac ∧ ac < 5 then
    ⟨ac, if 0 < st.boardRow then st.boardRow - 1 else st.boardRow,
      st.boardColumnOffset⟩
  else st

/-- The plain `tea.MouseButtonWheelDown` case of `handleBoardMouse`: focus
the hovered column and move the row down by one while it is below
`columnCount - 1`; again the row is not clamped downwards to the new
column's length. -/
def boardWheelDownCore (tasks : List Task) (ready : Str → Bool)
    (st : BoardNav) (ac : Int) : BoardNav :=
  if 0 ≤ ac ∧ ac < 5 then
    let columnCount := boardColumnCount tasks ready ac
    ⟨ac,
      if st.boardRow < (columnCount : Int) - 1 then st.boardRow + 1
      else st.boardRow,
      st.boardColumnOffset⟩
  else st

/-- Wheel-up over the board: the pointer's X is mapped to a column exactly
as in the left-click case. -/
def handleBoardWheelUp (width : Nat) (st : BoardNav) (mouseX : Nat) :
    BoardNav :=
  let vc := visibleCols width
  let colWidth := width / vc
  let sc0 := mouseX / colWidth
  let sc := if sc0 ≥ vc then vc - 1 else sc0
  boardWheelUpCore st (st.boardColumnOffset + (sc : Int))

/-- Wheel-down over the board. -/
def handleBoardWheelDown (tasks : List Task) (ready : Str → Bool)
    (width : Nat) (st : BoardNav) (mouseX : Nat) : BoardNav :=
  let vc := visibleCols width
  let colWidth := width / vc
  let sc0 := mouseX / colWidth
  let sc := if sc0 ≥ vc then vc - 1 else sc0
  boardWheelDownCore tasks ready st (st.boardColumnOffset + (sc : Int))

/-- The board-cursor invariant of the spec: column in `[0,5)`, row within
the current column (or 0 when it is empty), offset window containing the
focused column. -/
def BoardCursorInv (tasks : List Task) (ready : Str → Bool) (width : Nat)
    (st : BoardNav) : Prop :=
  0 ≤ st.boardColumn ∧ st.boardColumn < 5 ∧
  (0 < boardColumnCount tasks ready st.boardColumn →
    0 ≤ st.boardRow ∧
      st.boardRow < (boardColumnCount tasks ready st.boardColumn : Int)) ∧
  (boardColumnCount tasks ready st.boardColumn = 0 → st.boardRow = 0) ∧
  st.boardColumnOffset ≤ st.boardColumn ∧
  st.boardColumn < st.boardColumnOffset + (visibleCols width : Int)

/-! ## Panel focus cycling (`getVisiblePanels`, `cyclePanelFocus`) -/

/-- `PanelFocus`. -/
inductive PanelFocus where
  | inProgress | openPanel | closedPanel
deriving DecidableEq, Repr

/-- `getVisiblePanels`: the In-Progress panel only when it has at least one
task; Open and Closed always. -/
def getVisiblePanels (inProgressCount : Nat) : List PanelFocus :=
  (if 0 < inProgressCount then [PanelFocus.inProgress] else []) ++
    [PanelFocus.openPanel, PanelFocus.closedPanel]

/-- `cyclePanelFocus` (focus bookkeeping elided; the result is the newly
focused panel).  Go's `%` on the nonnegative dividend used here is
`Int.tmod`. -/
def cyclePanelFocus (inProgressCount : Nat) (focused : PanelFocus)
    (direction : Int) : PanelFocus :=
  let vis := getVisiblePanels inProgressCount
  if vis.isEmpty then focused
  else
    let ci : Int := match vis.findIdx? (fun p => decide (p = focused)) with
      | some i => (i : Int)
      | none => 0
    let n : Int := (vis.length : Int)
    let newIdx := Int.tmod (ci + direction + n) n
    vis.getD newIdx.toNat focused

/-- Panel item counts for a scenario `(inProgress, open, closed)`. -/
def panelCount (counts : Nat × Nat × Nat) : PanelFocus → Nat
  | PanelFocus.inProgress => counts.1
  | PanelFocus.openPanel => counts.2.1
  | PanelFocus.closedPanel => counts.2.2

/-! ## Snapshot refresh guard (`Update` tickMsg case, `handleListKeys`
Refresh case, `tasksLoadedMsg` case)

Each step is `(newLoadingFlag, invokesLoadTasks)`. -/

/-- The `tickMsg` case: refresh only when no load is in flight. -/
def processTick (loading : Bool) : Bool × Bool :=
  if !loading then (true, true) else (loading, false)

/-- The `m.keys.Refresh` case of `handleListKeys`: `return m.loadTasks()`,
unconditionally. -/
def processRefreshKey (loading : Bool) : Bool × Bool :=
  (loading, true)

/-- The `tasksLoadedMsg` case: the in-flight load completes,
`m.loading = false`. -/
def processTasksLoaded (_loading : Bool) : Bool := false

/-! Basic lemmas about the identifier functions. -/

/-! ## Spec-side predicates and concrete scenario data -/

/-- The spec's text-filter condition: empty query, or the lowered query is a
substring of the lowered title or of the lowered identifier. -/
def textMatchesSpec (q : Str) (t : Task) : Prop :=
  q = [] ∨ (∃ pre post, toLowerStr t.title = pre ++ toLowerStr q ++ post) ∨
    (∃ pre post, toLowerStr t.id = pre ++ toLowerStr q ++ post)

/-- The spec's preset-filter condition per mode. -/
def presetSpec : FilterMode → Task → Prop
  | FilterMode.all, _ => True
  | FilterMode.openOnly, t => t.status ≠ str "closed"
  | FilterMode.closedOnly, t => t.status = str "closed"
  | FilterMode.readyOnly, t => t.status ≠ str "closed" ∧ t.blockedBy = []

/-- The Closed panel contents computed by `distributeTasks`: the closed
bucket, flattened with `sortClosedTasks`.  The active `sortMode` is taken
as a parameter to express that it does not influence the closed panel
(the Go code applies `sortClosedTasks`, not `sortTasks`, to this bucket). -/
def closedPanelItems (tasks : List Task) (q : Str) (mode : FilterMode)
    (_sortMode : SortMode) (cs : CollapseSet) : List TaskItem :=
  flattenTree (bucketTasks tasks q mode (str "closed")) cs sortClosedTasks

/-- A simple issue for concrete scenarios. -/
def mkTask (id status : String) : Task :=
  ⟨str id, str id, str status, 2, 0, 0, none, []⟩

def exA : Task := mkTask "A" "open"

def exA1 : Task := mkTask "A.1" "open"

def exA2 : Task := mkTask "A.2" "closed"

def exA11 : Task := mkTask "A.1.1" "open"

/-- The default sort, used as the concrete `sortFn` of scenarios. -/
def exSort : List Task → List Task := sortTasks SortMode.default

def c1Blocked : Task := ⟨str "x", str "x", str "open", 1, 0, 0, none, [str "y"]⟩

def c1InProg : Task := mkTask "y" "in_progress"

def c1Closed : Task := ⟨str "z", str "z", str "closed", 1, 0, 0, some 5, []⟩

def c4TaskA : Task := mkTask "a" "open"

def c4TaskB : Task := mkTask "b" "open"

def c5TaskC : Task := mkTask "c" "open"

theorem lastDotIdx_eq_none {s : Str} (hs : '.' ∉ s) : lastDotIdx s = none := by
  induction s with
  | nil => rfl
  | cons c cs ih =>
    have hc : c ≠ '.' := fun h => hs (h ▸ List.mem_cons_self c cs)
    have hcs : '.' ∉ cs := fun h => hs (List.mem_cons_of_mem _ h)
    simp [lastDotIdx, ih hcs, hc]

theorem lastDotIdx_append_dot (p : Str) {s : Str} (hs : '.' ∉ s) :
    lastDotIdx (p ++ '.' :: s) = some p.length := by
  induction p with
  | nil =>
    simp only [List.nil_append, lastDotIdx]
    simp [lastDotIdx_eq_none hs]
  | cons c cs ih =>
    simp [lastDotIdx, List.cons_append, List.append_eq, ih, List.length_cons]

/-- When the identifier has the shape `p.c` with `c` dot-free, `ParentID`
returns `p`. -/
theorem ParentID_append {p c : Str} (hc : '.' ∉ c) :
    ParentID (p ++ '.' :: c) = p := by
  unfold ParentID
  rw [lastDotIdx_append_dot p hc]
  simp [List.take_left']

/-- `ParentID` of a dot-free identifier is empty. -/
theorem ParentID_no_dot {id : Str} (h : '.' ∉ id) : ParentID id = [] := by
  unfold ParentID
  rw [lastDotIdx_eq_none h]

/-- If the identifier contains a dot, it decomposes as
`ParentID id ++ "." ++ s` with `s` dot-free. -/
theorem ParentID_decomp {id : Str} (h : '.' ∈ id) :
    ∃ s, id = ParentID id ++ '.' :: s ∧ '.' ∉ s := by
  induction id with
  | nil => cases h
  | cons a l ih =>
    by_cases hl : '.' ∈ l
    · obtain ⟨s, hdecomp, hs⟩ := ih hl
      refine ⟨s, ?_, hs⟩
      have hi : lastDotIdx l = some (ParentID l).length := by
        have h2 := lastDotIdx_append_dot (ParentID l) hs
        rw [← hdecomp] at h2
        exact h2
      show a :: l = ParentID (a :: l) ++ '.' :: s
      unfold ParentID at hdecomp ⊢
      simp only [lastDotIdx, hi] at hdecomp ⊢
      simp only [List.take_succ_cons, List.cons_append]
      exact congrArg (a :: ·) hdecomp
    · have ha : a = '.' := by
        rcases List.mem_cons.mp h with h1 | h2
        · exact h1.symm
        · exact absurd h2 hl
      subst ha
      refine ⟨l, ?_, hl⟩
      show '.' :: l = ParentID ('.' :: l) ++ '.' :: l
      unfold ParentID
      simp [lastDotIdx, lastDotIdx_eq_none hl]

/-- `ParentID` is strictly shorter than a dotted identifier. -/
theorem ParentID_length_lt {id : Str} (h : '.' ∈ id) :
    (ParentID id).length < id.length := by
  obtain ⟨s, hdecomp, _⟩ := ParentID_decomp h
  conv_rhs => rw [hdecomp]
  simp [List.length_append]

/-- If an identifier has no dot then `Depth = 0`; `Depth (p ++ "." ++ c)`
with `c` dot-free is `Depth p + 1`. -/
theorem Depth_append {p c : Str} (hc : '.' ∉ c) :
    Depth (p ++ '.' :: c) = Depth p + 1 := by
  unfold Depth
  rw [List.count_append, List.count_cons]
  have : c.count '.' = 0 := List.count_eq_zero.mpr hc
  simp [this]

theorem hasPre_iff (h p : Str) : hasPre h p = true ↔ p <+: h := by
  induction p generalizing h with
  | nil => simp [hasPre]
  | cons c cs ih =>
    cases h with
    | nil =>
      simp only [hasPre, Bool.false_eq_true, false_iff]
      intro hcon
      exact absurd (hcon.length_le) (by simp)
    | cons a as =>
      simp only [hasPre, Bool.and_eq_true, decide_eq_true_eq, ih]
      constructor
      · rintro ⟨rfl, hpre⟩
        obtain ⟨t, ht⟩ := hpre
        exact ⟨t, by simp [← ht]⟩
      · intro hpre
        obtain ⟨t, ht⟩ := hpre
        simp only [List.cons_append, List.cons.injEq] at ht
        exact ⟨ht.1.symm, ht.2 ▸ List.prefix_append cs t⟩

/-- `IsDirectChildOf` holds exactly when the child is the parent followed by
a dot and a dot-free remainder. -/
theorem IsDirectChildOf_iff (child parent : Str) :
    IsDirectChildOf child parent = true ↔
      ∃ r, child = parent ++ '.' :: r ∧ '.' ∉ r := by
  unfold IsDirectChildOf
  by_cases hp : hasPre child (parent ++ ['.']) = true
  · rw [if_pos hp]
    obtain ⟨t, ht⟩ := (hasPre_iff _ _).mp hp
    constructor
    · intro hnd
      refine ⟨t, ?_, ?_⟩
      · rw [← ht]; simp
      · have hd : child.drop (parent.length + 1) = t := by
          rw [← ht]
          have : (parent ++ ['.']).length = parent.length + 1 := by simp
          rw [← this, List.drop_left]
        rw [hd] at hnd
        exact of_decide_eq_true hnd
    · rintro ⟨r, hr, hnr⟩
      have hd : child.drop (parent.length + 1) = r := by
        rw [hr]
        have : parent ++ '.' :: r = (parent ++ ['.']) ++ r := by simp
        rw [this]
        have hlen : (parent ++ ['.']).length = parent.length + 1 := by simp
        rw [← hlen, List.drop_left]
      rw [hd]
      exact decide_eq_true hnr
  · rw [if_neg hp]
    simp only [Bool.false_eq_true, false_iff]
    rintro ⟨r, hr, _⟩
    apply hp
    rw [hasPre_iff]
    exact ⟨r, by rw [hr]; simp⟩

theorem insertBy_perm (less : Task → Task → Bool) (x : Task) (l : List Task) :
    List.Perm (insertBy less x l) (x :: l) := by
  induction l with
  | nil => exact List.Perm.refl _
  | cons y ys ih =>
    unfold insertBy
    by_cases h : less x y = true
    · rw [if_pos h]
    · rw [if_neg h]
      exact ((ih.cons y).trans (List.Perm.swap x y ys))

theorem sortByLess_perm (less : Task → Task → Bool) (l : List Task) :
    List.Perm (sortByLess less l) l := by
  induction l with
  | nil => exact List.Perm.refl _
  | cons x xs ih =>
    exact (insertBy_perm less x (sortByLess less xs)).trans (ih.cons x)

theorem insertBy_pairwise {less : Task → Task → Bool}
    (htrans : ∀ a b c, less a b = true → less b c = true → less a c = true)
    (hasymm : ∀ a b, less a b = true → less b a = false)
    (x : Task) {l : List Task}
    (hl : l.Pairwise (fun a b => less b a = false)) :
    (insertBy less x l).Pairwise (fun a b => less b a = false) := by
  induction l with
  | nil => simp [insertBy]
  | cons y ys ih =>
    rcases List.pairwise_cons.mp hl with ⟨hy, hys⟩
    unfold insertBy
    by_cases h : less x y = true
    · rw [if_pos h]
      refine List.pairwise_cons.mpr ⟨?_, hl⟩
      intro z hz
      rcases List.mem_cons.mp hz with rfl | hz'
      · exact hasymm x z h
      · by_contra hzx
        have hzx' : less z x = true := by
          cases hcase : less z x with
          | false => exact absurd hcase hzx
          | true => rfl
        have : less z y = true := htrans z x y hzx' h
        rw [hy z hz'] at this
        cases this
    · rw [if_neg h]
      refine List.pairwise_cons.mpr ⟨?_, ih hys⟩
      intro z hz
      have hz' := (insertBy_perm less x ys).mem_iff.mp hz
      rcases List.mem_cons.mp hz' with rfl | hz''
      · cases hcase : less z y with
        | false => rfl
        | true => exact absurd hcase h
      · exact hy z hz''

theorem lessClosed_trans (a b c : Task) (hab : lessClosed a b = true)
    (hbc : lessClosed b c = true) : lessClosed a c = true := by
  unfold lessClosed at *
  cases ha : a.closedAt <;> cases hb : b.closedAt <;> cases hc : c.closedAt <;>
    simp only [ha, hb, hc] at hab hbc ⊢ <;> simp_all <;> omega

theorem lessClosed_asymm (a b : Task) (hab : lessClosed a b = true) :
    lessClosed b a = false := by
  unfold lessClosed at *
  cases ha : a.closedAt <;> cases hb : b.closedAt <;>
    simp only [ha, hb] at hab ⊢ <;> simp_all <;> omega

theorem sortClosedTasks_pairwise (l : List Task) :
    (sortClosedTasks l).Pairwise (fun a b => lessClosed b a = false) := by
  unfold sortClosedTasks
  induction l with
  | nil => simp [sortByLess]
  | cons x xs ih =>
    exact insertBy_pairwise lessClosed_trans lessClosed_asymm x ih

section FlattenTheory

variable {tasks : List Task} {sortFn : List Task → List Task} {cs : CollapseSet}

/-! ### Theory of the flattening walk -/



theorem mem_childrenOf {u : Task} {pk : Str} :
    u ∈ childrenOf tasks pk ↔
      u ∈ tasks ∧ groupKey (tasks.map Task.id) u = pk := by
  simp [childrenOf, List.mem_filter]

theorem childrenOf_mem_tasks {u : Task} {pk : Str}
    (h : u ∈ childrenOf tasks pk) : u ∈ tasks :=
  (mem_childrenOf.mp h).1

theorem ParentID_ne_nil_dot {id : Str} (h : ParentID id ≠ []) : '.' ∈ id := by
  by_contra hno
  exact h (ParentID_no_dot hno)

/-- Group keys of existing members are either the (strictly shorter)
`ParentID` or the empty root key. -/
theorem childrenOf_id_length (Hne : ∀ t ∈ tasks, t.id ≠ []) {u : Task}
    {pk : Str} (hu : u ∈ childrenOf tasks pk) : pk.length < u.id.length := by
  obtain ⟨hmem, hkey⟩ := mem_childrenOf.mp hu
  unfold groupKey at hkey
  by_cases hcond : ParentID u.id ≠ [] ∧ ParentID u.id ∈ tasks.map Task.id
  · rw [if_pos hcond] at hkey
    subst hkey
    exact ParentID_length_lt (ParentID_ne_nil_dot hcond.1)
  · rw [if_neg hcond] at hkey
    subst hkey
    simpa using List.length_pos.mpr (Hne u hmem)

theorem keyMeasure_lt (Hne : ∀ t ∈ tasks, t.id ≠ []) {u : Task} {pk : Str}
    (hu : u ∈ childrenOf tasks pk) :
    keyMeasure tasks u.id < keyMeasure tasks pk := by
  have hlen := childrenOf_id_length Hne hu
  have hmono : List.Sublist
      (tasks.filter (fun v => decide (u.id.length < v.id.length)))
      (tasks.filter (fun v => decide (pk.length < v.id.length))) :=
    List.monotone_filter_right tasks (fun v hv => by
      simp only [decide_eq_true_eq] at hv ⊢
      omega)
  have hle := hmono.length_le
  unfold keyMeasure
  rcases Nat.lt_or_ge
      (tasks.filter (fun v => decide (u.id.length < v.id.length))).length
      (tasks.filter (fun v => decide (pk.length < v.id.length))).length with
    h | h
  · exact h
  · exfalso
    have heq := hmono.eq_of_length_le h
    have humem : u ∈ tasks.filter (fun v => decide (pk.length < v.id.length)) := by
      simp only [List.mem_filter, decide_eq_true_eq]
      exact ⟨childrenOf_mem_tasks hu, hlen⟩
    rw [← heq] at humem
    simp only [List.mem_filter, decide_eq_true_eq] at humem
    omega

/-- `sortedChildren` is a permutation of the raw group whenever the sort
function permutes its input. -/
theorem sortedChildren_perm (Hperm : ∀ l, List.Perm (sortFn l) l) (pk : Str) :
    List.Perm (sortedChildren tasks sortFn pk) (childrenOf tasks pk) := by
  unfold sortedChildren
  cases h : childrenOf tasks pk with
  | nil => exact List.Perm.refl _
  | cons x xs => exact Hperm (x :: xs)

theorem mem_sortedChildren (Hperm : ∀ l, List.Perm (sortFn l) l) {pk : Str}
    {u : Task} (h : u ∈ sortedChildren tasks sortFn pk) :
    u ∈ childrenOf tasks pk :=
  (sortedChildren_perm Hperm pk).mem_iff.mp h

theorem flatMap_congr_mem {α β : Type} {l : List α} {f g : α → List β}
    (h : ∀ a ∈ l, f a = g a) : l.flatMap f = l.flatMap g := by
  induction l with
  | nil => rfl
  | cons x xs ih =>
    simp only [List.flatMap_cons]
    rw [h x (List.mem_cons_self x xs),
      ih (fun a ha => h a (List.mem_cons_of_mem _ ha))]

/-- Any two sufficient fuels give the same walk. -/
theorem walk_fuel (Hne : ∀ t ∈ tasks, t.id ≠ [])
    (Hperm : ∀ l, List.Perm (sortFn l) l) :
    ∀ (k n m : Nat) (pk : Str) (d : Nat), keyMeasure tasks pk ≤ k →
      keyMeasure tasks pk < n → keyMeasure tasks pk < m →
      walk tasks sortFn cs n pk d = walk tasks sortFn cs m pk d := by
  intro k
  induction k with
  | zero =>
    intro n m pk d hk hn hm
    have hempty : childrenOf tasks pk = [] := by
      cases hch : childrenOf tasks pk with
      | nil => rfl
      | cons x xs =>
        exfalso
        have hx : x ∈ childrenOf tasks pk := hch ▸ List.mem_cons_self x xs
        have := keyMeasure_lt Hne hx
        omega
    have hsc : sortedChildren tasks sortFn pk = [] := by
      unfold sortedChildren
      rw [hempty]
    obtain ⟨n', rfl⟩ := Nat.exists_eq_succ_of_ne_zero (by omega : n ≠ 0)
    obtain ⟨m', rfl⟩ := Nat.exists_eq_succ_of_ne_zero (by omega : m ≠ 0)
    show (sortedChildren tasks sortFn pk).flatMap _ =
      (sortedChildren tasks sortFn pk).flatMap _
    rw [hsc]
    rfl
  | succ k ih =>
    intro n m pk d hk hn hm
    obtain ⟨n', rfl⟩ := Nat.exists_eq_succ_of_ne_zero (by omega : n ≠ 0)
    obtain ⟨m', rfl⟩ := Nat.exists_eq_succ_of_ne_zero (by omega : m ≠ 0)
    show (sortedChildren tasks sortFn pk).flatMap _ =
      (sortedChildren tasks sortFn pk).flatMap _
    apply flatMap_congr_mem
    intro t ht
    have htc : t ∈ childrenOf tasks pk := mem_sortedChildren Hperm ht
    have hlt := keyMeasure_lt Hne htc
    by_cases hcond : (hcB tasks sortFn t && !collB cs t) = true
    · simp only [hcond, if_true]
      have : walk tasks sortFn cs n' t.id (d + 1) =
          walk tasks sortFn cs m' t.id (d + 1) :=
        ih n' m' t.id (d + 1) (by omega) (by omega) (by omega)
      rw [this]
    · simp only [Bool.not_eq_true] at hcond
      simp only [hcond]
      rfl

/-- The recursion equation of the canonical-fuel walk. -/
theorem subFlatten_eq (Hne : ∀ t ∈ tasks, t.id ≠ [])
    (Hperm : ∀ l, List.Perm (sortFn l) l) (pk : Str) (d : Nat) :
    subFlatten tasks sortFn cs pk d =
      (sortedChildren tasks sortFn pk).flatMap (fun t =>
        ⟨t, d, hcB tasks sortFn t, hcB tasks sortFn t && !collB cs t⟩ ::
          (if hcB tasks sortFn t && !collB cs t then
            subFlatten tasks sortFn cs t.id (d + 1)
          else [])) := by
  unfold subFlatten
  show (sortedChildren tasks sortFn pk).flatMap _ = _
  apply flatMap_congr_mem
  intro t ht
  have htc : t ∈ childrenOf tasks pk := mem_sortedChildren Hperm ht
  have hlt := keyMeasure_lt Hne htc
  by_cases hcond : (hcB tasks sortFn t && !collB cs t) = true
  · simp only [hcond, if_true]
    have : walk tasks sortFn cs (keyMeasure tasks pk) t.id (d + 1) =
        walk tasks sortFn cs (keyMeasure tasks t.id + 1) t.id (d + 1) :=
      walk_fuel Hne Hperm (keyMeasure tasks t.id) _ _ t.id (d + 1)
        (Nat.le_refl _) (by omega) (by omega)
    rw [this]
  · simp only [Bool.not_eq_true] at hcond
    simp only [hcond]
    rfl

/-- `flattenTree` equals the canonical-fuel walk from the root key. -/
theorem flattenTree_eq (Hne : ∀ t ∈ tasks, t.id ≠ [])
    (Hperm : ∀ l, List.Perm (sortFn l) l) :
    flattenTree tasks cs sortFn = subFlatten tasks sortFn cs [] 0 := by
  unfold flattenTree subFlatten
  have hle : keyMeasure tasks [] ≤ tasks.length := by
    unfold keyMeasure
    exact (List.filter_sublist tasks).length_le
  exact walk_fuel Hne Hperm (keyMeasure tasks []) _ _ [] 0 (Nat.le_refl _)
    (by omega) (by omega)

theorem Reach.mem_tasks {pk : Str} {u : Task} (h : Reach tasks pk u) :
    u ∈ tasks := by
  induction h with
  | base hb => exact childrenOf_mem_tasks hb
  | step _ _ ih => exact ih

theorem ReachE.toReach {pk : Str} {u : Task}
    (h : ReachE tasks sortFn cs pk u) : Reach tasks pk u := by
  induction h with
  | base hb => exact Reach.base hb
  | step ht _ _ ih => exact Reach.step ht ih

theorem Reach.id_length (Hne : ∀ t ∈ tasks, t.id ≠ []) {pk : Str} {u : Task}
    (h : Reach tasks pk u) : pk.length < u.id.length := by
  induction h with
  | base hb => exact childrenOf_id_length Hne hb
  | step ht _ ih => exact lt_trans (childrenOf_id_length Hne ht) ih

theorem Reach.back {pk : Str} {u : Task} (h : Reach tasks pk u) :
    groupKey (tasks.map Task.id) u = pk ∨
      ∃ w, w ∈ tasks ∧ w.id = groupKey (tasks.map Task.id) u ∧
        Reach tasks pk w := by
  induction h with
  | base hb => exact Or.inl (mem_childrenOf.mp hb).2
  | step ht _ ih =>
    rcases ih with hg | ⟨w, hwm, hwid, hrw⟩
    · exact Or.inr ⟨_, childrenOf_mem_tasks ht, hg.symm, Reach.base ht⟩
    · exact Or.inr ⟨w, hwm, hwid, Reach.step ht hrw⟩

theorem ReachE.backE {pk : Str} {u : Task} (h : ReachE tasks sortFn cs pk u) :
    groupKey (tasks.map Task.id) u = pk ∨
      ∃ w, w ∈ tasks ∧ w.id = groupKey (tasks.map Task.id) u ∧
        ReachE tasks sortFn cs pk w ∧
        (hcB tasks sortFn w && !collB cs w) = true := by
  induction h with
  | base hb => exact Or.inl (mem_childrenOf.mp hb).2
  | step ht hexp _ ih =>
    rcases ih with hg | ⟨w, hwm, hwid, hrw, hexpw⟩
    · exact Or.inr ⟨_, childrenOf_mem_tasks ht, hg.symm, ReachE.base ht, hexp⟩
    · exact Or.inr ⟨w, hwm, hwid, ReachE.step ht hexp hrw, hexpw⟩

theorem Reach.snoc {pk : Str} {w u : Task} (h : Reach tasks pk w)
    (hu : u ∈ childrenOf tasks w.id) : Reach tasks pk u := by
  induction h with
  | base hb => exact Reach.step hb (Reach.base hu)
  | step ht _ ih => exact Reach.step ht (ih hu)

theorem ReachE.snocE {pk : Str} {w u : Task}
    (h : ReachE tasks sortFn cs pk w)
    (hexpw : (hcB tasks sortFn w && !collB cs w) = true)
    (hu : u ∈ childrenOf tasks w.id) : ReachE tasks sortFn cs pk u := by
  induction h with
  | base hb => exact ReachE.step hb hexpw (ReachE.base hu)
  | step ht hexp _ ih => exact ReachE.step ht hexp (ih hexpw hu)

/-- Distinct bucket ids identify tasks uniquely. -/
theorem uniq_id (Hnodup : (tasks.map Task.id).Nodup) {u v : Task}
    (hu : u ∈ tasks) (hv : v ∈ tasks) (h : u.id = v.id) : u = v :=
  List.inj_on_of_nodup_map Hnodup hu hv h

/-- No member of a sibling group is reachable from a sibling's subtree. -/
theorem sib (Hne : ∀ t ∈ tasks, t.id ≠ []) {pk : Str} {t u : Task}
    (ht : t ∈ childrenOf tasks pk) (hu : u ∈ childrenOf tasks pk) :
    ¬ Reach tasks t.id u := by
  intro hr
  have hpk : groupKey (tasks.map Task.id) u = pk := (mem_childrenOf.mp hu).2
  have h1 := childrenOf_id_length Hne ht
  rcases hr.back with hg | ⟨w, _, hwid, hrw⟩
  · rw [hpk] at hg
    have := congrArg List.length hg
    omega
  · rw [hpk] at hwid
    have h2 := hrw.id_length Hne
    have := congrArg List.length hwid
    omega

/-- If a task has a nonempty group key, that key is its (strictly shorter)
`ParentID`, which is present among the bucket ids. -/
theorem groupKey_ne_nil {u : Task}
    (h : groupKey (tasks.map Task.id) u ≠ []) :
    groupKey (tasks.map Task.id) u = ParentID u.id ∧
      ParentID u.id ∈ tasks.map Task.id ∧ '.' ∈ u.id := by
  unfold groupKey at h ⊢
  by_cases hc : ParentID u.id ≠ [] ∧ ParentID u.id ∈ tasks.map Task.id
  · rw [if_pos hc]
    exact ⟨rfl, hc.2, ParentID_ne_nil_dot hc.1⟩
  · rw [if_neg hc] at h
    exact absurd rfl h

/-- Two ancestor keys of the same task are comparable: equal, or one
reaches (a task carrying) the other. -/
theorem reach_comparable (Hne : ∀ t ∈ tasks, t.id ≠ [])
    (Hnodup : (tasks.map Task.id).Nodup) (u : Task) (p q : Str)
    (hp : Reach tasks p u) (hq : Reach tasks q u) :
    p = q ∨ (∃ w, w ∈ tasks ∧ w.id = q ∧ Reach tasks p w) ∨
      (∃ w, w ∈ tasks ∧ w.id = p ∧ Reach tasks q w) := by
  have main : ∀ (n : Nat) (u : Task), u.id.length = n → ∀ p q,
      Reach tasks p u → Reach tasks q u →
      p = q ∨ (∃ w, w ∈ tasks ∧ w.id = q ∧ Reach tasks p w) ∨
        (∃ w, w ∈ tasks ∧ w.id = p ∧ Reach tasks q w) := by
    intro n
    induction n using Nat.strong_induction_on with
    | _ n ih =>
      intro u hlen p q hp hq
      rcases hp.back with hg1 | ⟨w1, hw1m, hw1id, hrw1⟩ <;>
        rcases hq.back with hg2 | ⟨w2, hw2m, hw2id, hrw2⟩
      · left; rw [← hg1, ← hg2]
      · right; right; exact ⟨w2, hw2m, by rw [hw2id, hg1], hrw2⟩
      · right; left; exact ⟨w1, hw1m, by rw [hw1id, hg2], hrw1⟩
      · have hw12 : w1 = w2 := uniq_id Hnodup hw1m hw2m (by rw [hw1id, hw2id])
        subst hw12
        have hgne : groupKey (tasks.map Task.id) u ≠ [] := by
          rw [← hw1id]; exact Hne w1 hw1m
        obtain ⟨hgp, _, hdot⟩ := groupKey_ne_nil hgne
        have hlt : w1.id.length < n := by
          rw [hw1id, hgp, ← hlen]
          exact ParentID_length_lt hdot
        exact ih w1.id.length hlt w1 rfl p q hrw1 hrw2
  exact main u.id.length u rfl p q hp hq

theorem count_flatMap {α β : Type} [DecidableEq β] (u : β) (l : List α)
    (f : α → List β) :
    (l.flatMap f).count u = (l.map (fun t => (f t).count u)).sum := by
  induction l with
  | nil => rfl
  | cons x xs ih => simp [List.count_append, ih]

theorem sum_indicator_count {α : Type} [DecidableEq α] (l : List α) (u : α) :
    (l.map (fun t => if t = u then (1 : Nat) else 0)).sum = l.count u := by
  induction l with
  | nil => rfl
  | cons x xs ih =>
    simp only [List.map_cons, List.sum_cons, List.count_cons, ih, beq_iff_eq]
    by_cases h : x = u
    · simp [h]; omega
    · have h2 : ¬(u = x) := fun he => h he.symm
      simp [h, h2]

/-- Each task is emitted by the walk of `pk` exactly once if it is
expanded-reachable from `pk`, and not at all otherwise. -/
theorem subFlatten_count (Hne : ∀ t ∈ tasks, t.id ≠ [])
    (Hperm : ∀ l, List.Perm (sortFn l) l)
    (Hnodup : (tasks.map Task.id).Nodup) :
    ∀ (pk : Str) (d : Nat) (u : Task),
      (¬ ReachE tasks sortFn cs pk u →
        ((subFlatten tasks sortFn cs pk d).map TaskItem.task).count u = 0) ∧
      (ReachE tasks sortFn cs pk u →
        ((subFlatten tasks sortFn cs pk d).map TaskItem.task).count u = 1) := by
  have main : ∀ (n : Nat) (pk : Str), keyMeasure tasks pk = n →
      ∀ (d : Nat) (u : Task),
      (¬ ReachE tasks sortFn cs pk u →
        ((subFlatten tasks sortFn cs pk d).map TaskItem.task).count u = 0) ∧
      (ReachE tasks sortFn cs pk u →
        ((subFlatten tasks sortFn cs pk d).map TaskItem.task).count u = 1) := by
    intro n
    induction n using Nat.strong_induction_on with
    | _ n ih =>
      intro pk hn d u
      have hrw : ((subFlatten tasks sortFn cs pk d).map TaskItem.task).count u
          = ((sortedChildren tasks sortFn pk).map (fun t =>
              (if t = u then (1 : Nat) else 0) +
              (if (hcB tasks sortFn t && !collB cs t) = true then
                ((subFlatten tasks sortFn cs t.id (d + 1)).map
                  TaskItem.task).count u
              else 0))).sum := by
        rw [subFlatten_eq Hne Hperm, List.map_flatMap, count_flatMap]
        apply congrArg List.sum
        apply List.map_congr_left
        intro t _
        by_cases hcond : (hcB tasks sortFn t && !collB cs t) = true
        · by_cases htu : t = u
          · subst htu
            simp [hcond, List.count_cons] <;> omega
          · have h2 : ¬(u = t) := fun he => htu he.symm
            simp [hcond, htu, h2, List.count_cons] <;> omega
        · by_cases htu : t = u
          · subst htu
            simp [hcond, List.count_cons] <;> omega
          · have h2 : ¬(u = t) := fun he => htu he.symm
            simp [hcond, htu, h2, List.count_cons] <;> omega
      have hperm2 : ∀ g : Task → Nat,
          ((sortedChildren tasks sortFn pk).map g).sum =
          ((childrenOf tasks pk).map g).sum := fun g =>
        ((sortedChildren_perm Hperm pk).map g).sum_eq
      constructor
      · intro hneg
        rw [hrw, hperm2]
        apply List.sum_eq_zero
        intro x hx
        obtain ⟨t, htm, rfl⟩ := List.mem_map.mp hx
        have h1 : ¬ t = u := fun he => hneg (he ▸ ReachE.base htm)
        by_cases hcond : (hcB tasks sortFn t && !collB cs t) = true
        · have hnr : ¬ ReachE tasks sortFn cs t.id u := fun hr =>
            hneg (ReachE.step htm hcond hr)
          have hz := (ih (keyMeasure tasks t.id)
            (hn ▸ keyMeasure_lt Hne htm) t.id rfl (d + 1) u).1 hnr
          simp [h1, hcond, hz]
        · simp [h1, hcond]
      · intro hpos
        rw [hrw, hperm2]
        cases hpos with
        | base hb =>
          have hmapeq : (childrenOf tasks pk).map (fun t =>
              (if t = u then (1 : Nat) else 0) +
              (if (hcB tasks sortFn t && !collB cs t) = true then
                ((subFlatten tasks sortFn cs t.id (d + 1)).map
                  TaskItem.task).count u
              else 0)) =
              (childrenOf tasks pk).map (fun t =>
                if t = u then (1 : Nat) else 0) := by
            apply List.map_congr_left
            intro t htm
            have hnr : ¬ Reach tasks t.id u := sib Hne htm hb
            by_cases hcond : (hcB tasks sortFn t && !collB cs t) = true
            · have hnre : ¬ ReachE tasks sortFn cs t.id u := fun h =>
                hnr h.toReach
              have hz := (ih (keyMeasure tasks t.id)
                (hn ▸ keyMeasure_lt Hne htm) t.id rfl (d + 1) u).1 hnre
              simp [hcond, hz]
            · simp [hcond]
          rw [hmapeq, sum_indicator_count]
          have hle : (childrenOf tasks pk).count u ≤ tasks.count u :=
            (List.filter_sublist tasks).count_le u
          have ht1 : tasks.count u ≤ 1 :=
            List.nodup_iff_count_le_one.mp (List.Nodup.of_map _ Hnodup) u
          have hge : 0 < (childrenOf tasks pk).count u :=
            List.count_pos_iff.mpr hb
          omega
        | step ht0 hexp0 hru =>
          rename_i t0
          have ht0tasks : t0 ∈ tasks := childrenOf_mem_tasks ht0
          have hmapeq : (childrenOf tasks pk).map (fun t =>
              (if t = u then (1 : Nat) else 0) +
              (if (hcB tasks sortFn t && !collB cs t) = true then
                ((subFlatten tasks sortFn cs t.id (d + 1)).map
                  TaskItem.task).count u
              else 0)) =
              (childrenOf tasks pk).map (fun t =>
                if t = t0 then (1 : Nat) else 0) := by
            apply List.map_congr_left
            intro t htm
            have htu : ¬ t = u := by
              rintro rfl
              exact sib Hne ht0 htm hru.toReach
            by_cases htt0 : t = t0
            · subst htt0
              have h1 := (ih (keyMeasure tasks t.id)
                (hn ▸ keyMeasure_lt Hne htm) t.id rfl (d + 1) u).2 hru
              simp [htu, hexp0, h1]
            · have hnre : ¬ ReachE tasks sortFn cs t.id u := by
                intro hre
                rcases reach_comparable Hne Hnodup u t.id t0.id
                    hre.toReach hru.toReach with heq |
                    ⟨w, hwm, hwid, hww⟩ | ⟨w, hwm, hwid, hww⟩
                · exact htt0 (uniq_id Hnodup (childrenOf_mem_tasks htm)
                    ht0tasks heq)
                · have hw : w = t0 := uniq_id Hnodup hwm ht0tasks hwid
                  subst hw
                  exact sib Hne htm ht0 hww
                · have hw : w = t := uniq_id Hnodup hwm
                    (childrenOf_mem_tasks htm) hwid
                  subst hw
                  exact sib Hne ht0 htm hww
              by_cases hcond : (hcB tasks sortFn t && !collB cs t) = true
              · have hz := (ih (keyMeasure tasks t.id)
                  (hn ▸ keyMeasure_lt Hne htm) t.id rfl (d + 1) u).1 hnre
                simp [htu, htt0, hcond, hz]
              · simp [htu, htt0, hcond]
          rw [hmapeq, sum_indicator_count]
          have hle : (childrenOf tasks pk).count t0 ≤ tasks.count t0 :=
            (List.filter_sublist tasks).count_le t0
          have ht1 : tasks.count t0 ≤ 1 :=
            List.nodup_iff_count_le_one.mp (List.Nodup.of_map _ Hnodup) t0
          have hge : 0 < (childrenOf tasks pk).count t0 :=
            List.count_pos_iff.mpr ht0
          omega
  exact fun pk => main (keyMeasure tasks pk) pk rfl

/-- Every item emitted by the walk of `pk` is expanded-reachable from `pk`. -/
theorem mem_subFlatten_reachE (Hne : ∀ t ∈ tasks, t.id ≠ [])
    (Hperm : ∀ l, List.Perm (sortFn l) l)
    (Hnodup : (tasks.map Task.id).Nodup) {pk : Str} {d : Nat} {x : TaskItem}
    (hx : x ∈ subFlatten tasks sortFn cs pk d) :
    ReachE tasks sortFn cs pk x.task := by
  by_contra hnr
  have h0 := (subFlatten_count Hne Hperm Hnodup pk d x.task).1 hnr
  have hm : x.task ∈ (subFlatten tasks sortFn cs pk d).map TaskItem.task :=
    List.mem_map_of_mem TaskItem.task hx
  have := List.count_pos_iff.mpr hm
  omega

/-- Conversely every expanded-reachable task is emitted. -/
theorem reachE_mem_subFlatten (Hne : ∀ t ∈ tasks, t.id ≠ [])
    (Hperm : ∀ l, List.Perm (sortFn l) l)
    (Hnodup : (tasks.map Task.id).Nodup) {pk : Str} {u : Task} (d : Nat)
    (h : ReachE tasks sortFn cs pk u) :
    u ∈ (subFlatten tasks sortFn cs pk d).map TaskItem.task := by
  have h1 := (subFlatten_count Hne Hperm Hnodup pk d u).2 h
  exact List.count_pos_iff.mp (by omega)

/-- A nonempty sibling group makes `hasChildren` true. -/
theorem hcB_of_child (Hperm : ∀ l, List.Perm (sortFn l) l) {w u : Task}
    (hu : u ∈ childrenOf tasks w.id) : hcB tasks sortFn w = true := by
  unfold hcB
  have hm : u ∈ sortedChildren tasks sortFn w.id :=
    (sortedChildren_perm Hperm w.id).mem_iff.mpr hu
  cases hsc : sortedChildren tasks sortFn w.id with
  | nil => rw [hsc] at hm; cases hm
  | cons a l => rfl

/-- With an empty collapse-set, every bucket task is expanded-reachable from
the root key. -/
theorem reachE_of_mem_empty (Hne : ∀ t ∈ tasks, t.id ≠ [])
    (Hperm : ∀ l, List.Perm (sortFn l) l) {u : Task} (hu : u ∈ tasks) :
    ReachE tasks sortFn (∅ : CollapseSet) [] u := by
  have main : ∀ (n : Nat) (u : Task), u ∈ tasks → u.id.length = n →
      ReachE tasks sortFn (∅ : CollapseSet) [] u := by
    intro n
    induction n using Nat.strong_induction_on with
    | _ n ih =>
      intro u hu hlen
      by_cases hg : groupKey (tasks.map Task.id) u = []
      · exact ReachE.base (mem_childrenOf.mpr ⟨hu, hg⟩)
      · obtain ⟨hgp, hgm, hdot⟩ := groupKey_ne_nil hg
        obtain ⟨w, hwm, hwid⟩ := List.mem_map.mp hgm
        have hu2 : u ∈ childrenOf tasks w.id := mem_childrenOf.mpr
          ⟨hu, by rw [hgp, hwid]⟩
        have hwlen : w.id.length < n := by
          rw [hwid, ← hlen]
          exact ParentID_length_lt hdot
        have hw : ReachE tasks sortFn (∅ : CollapseSet) [] w :=
          ih w.id.length hwlen w hwm rfl
        have hhc := hcB_of_child Hperm hu2
        have hcoll : collB (∅ : CollapseSet) w = false := by
          simp [collB]
        exact hw.snocE (by rw [hhc, hcoll]; rfl) hu2
  exact main u.id.length u hu rfl

/-- With an empty collapse-set and duplicate-free nonempty ids, flattening
emits exactly the bucket tasks (no drop, no duplication). -/
theorem flattenTree_perm_empty (Hne : ∀ t ∈ tasks, t.id ≠ [])
    (Hnodup : (tasks.map Task.id).Nodup)
    (Hperm : ∀ l, List.Perm (sortFn l) l) :
    List.Perm ((flattenTree tasks (∅ : CollapseSet) sortFn).map TaskItem.task)
      tasks := by
  rw [flattenTree_eq Hne Hperm]
  apply List.perm_iff_count.mpr
  intro u
  by_cases hu : u ∈ tasks
  · have h1 := (subFlatten_count Hne Hperm Hnodup [] 0 u).2
      (reachE_of_mem_empty Hne Hperm hu)
    have hle : tasks.count u ≤ 1 :=
      List.nodup_iff_count_le_one.mp (List.Nodup.of_map _ Hnodup) u
    have hpos : 0 < tasks.count u := List.count_pos_iff.mpr hu
    omega
  · have hnr : ¬ ReachE tasks sortFn (∅ : CollapseSet) [] u := fun h =>
      hu h.toReach.mem_tasks
    have h1 := (subFlatten_count Hne Hperm Hnodup [] 0 u).1 hnr
    rw [h1]
    exact (List.count_eq_zero.mpr hu).symm

theorem count_one_split {α : Type} [DecidableEq α] {l : List α} {a : α}
    (h : l.count a = 1) : ∃ l1 l2, l = l1 ++ a :: l2 ∧ a ∉ l1 ∧ a ∉ l2 := by
  have hm : a ∈ l := List.count_pos_iff.mp (by omega)
  obtain ⟨l1, l2, rfl⟩ := List.append_of_mem hm
  refine ⟨l1, l2, rfl, ?_, ?_⟩ <;> {
    intro hmem
    rw [List.count_append, List.count_cons_self] at h
    have := List.count_pos_iff.mpr hmem
    omega }

theorem Reach.trans_key {p : Str} {u v : Task} (h1 : Reach tasks p u)
    (h2 : Reach tasks u.id v) : Reach tasks p v := by
  have main : ∀ {pk : Str} {v : Task}, Reach tasks pk v →
      ∀ {p : Str} {u : Task}, pk = u.id → Reach tasks p u → Reach tasks p v := by
    intro pk v h2
    induction h2 with
    | base hb => intro p u hpk h1; exact h1.snoc (hpk ▸ hb)
    | step ht _ ih =>
      intro p u hpk h1
      exact ih rfl (h1.snoc (hpk ▸ ht))
  exact main h2 rfl h1

theorem subFlatten_nil_of_no_children (Hne : ∀ t ∈ tasks, t.id ≠ [])
    (Hperm : ∀ l, List.Perm (sortFn l) l) {w : Task}
    (h : hcB tasks sortFn w = false) (d : Nat) :
    subFlatten tasks sortFn cs w.id d = [] := by
  have hsc : sortedChildren tasks sortFn w.id = [] := by
    unfold hcB at h
    cases hsc : sortedChildren tasks sortFn w.id with
    | nil => rfl
    | cons a l => rw [hsc] at h; cases h
  rw [subFlatten_eq Hne Hperm, hsc]
  rfl

theorem not_reach_sibling_sub (Hne : ∀ t ∈ tasks, t.id ≠ [])
    (Hnodup : (tasks.map Task.id).Nodup) {pk : Str} {t0 t' tgt : Task}
    (ht0 : t0 ∈ childrenOf tasks pk) (ht' : t' ∈ childrenOf tasks pk)
    (hne : t' ≠ t0) (hr0 : Reach tasks t0.id tgt) :
    ¬ Reach tasks t'.id tgt := by
  intro hr'
  rcases reach_comparable Hne Hnodup tgt t'.id t0.id hr' hr0 with heq |
      ⟨w, hwm, hwid, hww⟩ | ⟨w, hwm, hwid, hww⟩
  · exact hne (uniq_id Hnodup (childrenOf_mem_tasks ht')
      (childrenOf_mem_tasks ht0) heq)
  · have hw : w = t0 := uniq_id Hnodup hwm (childrenOf_mem_tasks ht0) hwid
    subst hw
    exact sib Hne ht' ht0 hww
  · have hw : w = t' := uniq_id Hnodup hwm (childrenOf_mem_tasks ht') hwid
    subst hw
    exact sib Hne ht0 ht' hww

theorem not_reach_up (Hne : ∀ t ∈ tasks, t.id ≠ []) {pk : Str}
    {t0 t' tgt : Task} (ht0 : t0 ∈ childrenOf tasks pk)
    (ht' : t' ∈ childrenOf tasks pk) (hr0 : Reach tasks t0.id tgt) :
    ¬ Reach tasks tgt.id t' := by
  intro h
  exact sib Hne ht0 ht' (hr0.trans_key h)

theorem block_pure (Hnodup : (tasks.map Task.id).Nodup)
    (Hne : ∀ t ∈ tasks, t.id ≠ []) {pk : Str} {t' tgt : Task}
    (ht' : t' ∈ childrenOf tasks pk) (htgtm : tgt ∈ tasks)
    (hne1 : t' ≠ tgt) (hnr : ¬ Reach tasks t'.id tgt)
    (hnr2 : ¬ Reach tasks tgt.id t') {x : TaskItem}
    (hx : x.task = t' ∨ Reach tasks t'.id x.task) :
    x.task ≠ tgt ∧ ¬ Reach tasks tgt.id x.task := by
  rcases hx with hx | hx
  · exact ⟨fun he => hne1 (hx ▸ he ▸ rfl), fun h => hnr2 (hx ▸ h)⟩
  · constructor
    · rintro rfl
      exact hnr hx
    · intro h2
      rcases reach_comparable Hne Hnodup x.task t'.id tgt.id hx h2 with heq |
          ⟨w, hwm, hwid, hww⟩ | ⟨w, hwm, hwid, hww⟩
      · exact hne1 (uniq_id Hnodup (childrenOf_mem_tasks ht') htgtm heq)
      · have hw : w = tgt := uniq_id Hnodup hwm htgtm hwid
        subst hw
        exact hnr hww
      · have hw : w = t' := uniq_id Hnodup hwm (childrenOf_mem_tasks ht') hwid
        subst hw
        exact hnr2 hww

theorem subFlatten_insert_eq (Hne : ∀ t ∈ tasks, t.id ≠ [])
    (Hperm : ∀ l, List.Perm (sortFn l) l)
    (Hnodup : (tasks.map Task.id).Nodup) {tgt : Task} (htm : tgt ∈ tasks) :
    ∀ (pk : Str) (d : Nat), ¬ ReachE tasks sortFn cs pk tgt →
      subFlatten tasks sortFn (insert tgt.id cs) pk d =
        subFlatten tasks sortFn cs pk d := by
  have main : ∀ (n : Nat) (pk : Str), keyMeasure tasks pk = n → ∀ (d : Nat),
      ¬ ReachE tasks sortFn cs pk tgt →
      subFlatten tasks sortFn (insert tgt.id cs) pk d =
        subFlatten tasks sortFn cs pk d := by
    intro n
    induction n using Nat.strong_induction_on with
    | _ n ih =>
      intro pk hn d hnr
      rw [subFlatten_eq Hne Hperm, subFlatten_eq Hne Hperm]
      apply flatMap_congr_mem
      intro t' ht'
      have ht'c := mem_sortedChildren Hperm ht'
      have ht'ne : t' ≠ tgt := fun he => hnr (he ▸ ReachE.base ht'c)
      have hidne : t'.id ≠ tgt.id := fun he =>
        ht'ne (uniq_id Hnodup (childrenOf_mem_tasks ht'c) htm he)
      have hcoll : collB (insert tgt.id cs) t' = collB cs t' := by
        simp [collB, Finset.mem_insert, hidne]
      rw [hcoll]
      by_cases hcond : (hcB tasks sortFn t' && !collB cs t') = true
      · simp only [hcond, if_true]
        have hnr2 : ¬ ReachE tasks sortFn cs t'.id tgt := fun hr =>
          hnr (ReachE.step ht'c hcond hr)
        rw [ih (keyMeasure tasks t'.id) (hn ▸ keyMeasure_lt Hne ht'c)
          t'.id rfl (d + 1) hnr2]
      · have hcond2 : (hcB tasks sortFn t' && !collB cs t') = false :=
          Bool.eq_false_iff.mpr hcond
        simp [hcond2]
  exact fun pk d => main (keyMeasure tasks pk) pk rfl d

theorem subFlatten_eq_body (Hne : ∀ t ∈ tasks, t.id ≠ [])
    (Hperm : ∀ l, List.Perm (sortFn l) l) (pk : Str) (d : Nat) :
    subFlatten tasks sortFn cs pk d =
      (sortedChildren tasks sortFn pk).flatMap
        (walkBody tasks sortFn cs d) := by
  rw [subFlatten_eq Hne Hperm]
  rfl

theorem mem_walkBody_cases (Hne : ∀ t ∈ tasks, t.id ≠ [])
    (Hperm : ∀ l, List.Perm (sortFn l) l)
    (Hnodup : (tasks.map Task.id).Nodup) {t' : Task} {d : Nat} {x : TaskItem}
    (hx : x ∈ walkBody tasks sortFn cs d t') :
    x.task = t' ∨ Reach tasks t'.id x.task := by
  rcases List.mem_cons.mp hx with rfl | hxs
  · exact Or.inl rfl
  · by_cases hcond : (hcB tasks sortFn t' && !collB cs t') = true
    · rw [if_pos hcond] at hxs
      exact Or.inr (mem_subFlatten_reachE Hne Hperm Hnodup hxs).toReach
    · rw [if_neg hcond] at hxs
      cases hxs

/-- Collapsing a visible unmarked node `tgt` removes exactly the walk of its
subtree, flips its `expanded` flag, and leaves the rest of the flattened
sequence unchanged. -/
theorem subFlatten_collapse_decomp (Hne : ∀ t ∈ tasks, t.id ≠ [])
    (Hperm : ∀ l, List.Perm (sortFn l) l)
    (Hnodup : (tasks.map Task.id).Nodup) :
    ∀ (pk : Str) (tgt : Task), ReachE tasks sortFn cs pk tgt →
      tgt ∈ tasks → tgt.id ∉ cs → ∀ (d : Nat),
      ∃ dt pre post,
        subFlatten tasks sortFn cs pk d =
          pre ++ ⟨tgt, dt, hcB tasks sortFn tgt, hcB tasks sortFn tgt⟩ ::
            (subFlatten tasks sortFn cs tgt.id (dt + 1) ++ post) ∧
        subFlatten tasks sortFn (insert tgt.id cs) pk d =
          pre ++ ⟨tgt, dt, hcB tasks sortFn tgt, false⟩ :: post ∧
        (∀ x ∈ pre, x.task ≠ tgt ∧ ¬ Reach tasks tgt.id x.task) ∧
        (∀ x ∈ post, x.task ≠ tgt ∧ ¬ Reach tasks tgt.id x.task) := by
  intro pk tgt hre
  induction hre with
  | @base pk u hb =>
    intro htm htc d
    have hcnt : (sortedChildren tasks sortFn pk).count u = 1 := by
      rw [(sortedChildren_perm Hperm pk).count_eq]
      have h1 : (childrenOf tasks pk).count u ≤ tasks.count u :=
        (List.filter_sublist tasks).count_le u
      have h2 : tasks.count u ≤ 1 :=
        List.nodup_iff_count_le_one.mp (List.Nodup.of_map _ Hnodup) u
      have h3 : 0 < (childrenOf tasks pk).count u := List.count_pos_iff.mpr hb
      omega
    obtain ⟨l1, l2, hsplit, hnl1, hnl2⟩ := count_one_split hcnt
    have hmem1 : ∀ t' ∈ l1, t' ∈ childrenOf tasks pk := by
      intro t' ht'
      apply mem_sortedChildren Hperm
      rw [hsplit]
      exact List.mem_append_left _ ht'
    have hmem2 : ∀ t' ∈ l2, t' ∈ childrenOf tasks pk := by
      intro t' ht'
      apply mem_sortedChildren Hperm
      rw [hsplit]
      exact List.mem_append_right _ (List.mem_cons_of_mem _ ht')
    have hcollu : collB cs u = false := by simp [collB, htc]
    have hblk : ∀ t' ∈ childrenOf tasks pk, t' ≠ u →
        walkBody tasks sortFn (insert u.id cs) d t' =
          walkBody tasks sortFn cs d t' := by
      intro t' ht'c hne
      have hidne : t'.id ≠ u.id := fun he =>
        hne (uniq_id Hnodup (childrenOf_mem_tasks ht'c) htm he)
      have hcoll : collB (insert u.id cs) t' = collB cs t' := by
        simp [collB, Finset.mem_insert, hidne]
      unfold walkBody
      rw [hcoll]
      by_cases hcond : (hcB tasks sortFn t' && !collB cs t') = true
      · rw [if_pos hcond, if_pos hcond]
        have hnre : ¬ ReachE tasks sortFn cs t'.id u := fun hr =>
          sib Hne ht'c hb hr.toReach
        rw [subFlatten_insert_eq Hne Hperm Hnodup htm t'.id (d + 1) hnre]
      · rw [if_neg hcond, if_neg hcond]
    refine ⟨d, l1.flatMap (walkBody tasks sortFn cs d),
      l2.flatMap (walkBody tasks sortFn cs d), ?_, ?_, ?_, ?_⟩
    · rw [subFlatten_eq_body Hne Hperm, hsplit, List.flatMap_append,
        List.flatMap_cons]
      have hbu : walkBody tasks sortFn cs d u =
          ⟨u, d, hcB tasks sortFn u, hcB tasks sortFn u⟩ ::
            subFlatten tasks sortFn cs u.id (d + 1) := by
        by_cases hhc : hcB tasks sortFn u = true
        · have hcondI : (hcB tasks sortFn u && !collB cs u) = true := by
            rw [hhc, hcollu]
            rfl
          unfold walkBody
          rw [if_pos hcondI, hcondI, hhc]
        · have hhc2 : hcB tasks sortFn u = false := Bool.eq_false_iff.mpr hhc
          rw [subFlatten_nil_of_no_children Hne Hperm hhc2]
          unfold walkBody
          rw [hhc2, hcollu]
          simp
      rw [hbu]
      simp [List.append_assoc, List.cons_append]
    · rw [subFlatten_eq_body Hne Hperm, hsplit, List.flatMap_append,
        List.flatMap_cons]
      have hfm1 : l1.flatMap (walkBody tasks sortFn (insert u.id cs) d) =
          l1.flatMap (walkBody tasks sortFn cs d) :=
        flatMap_congr_mem (fun t' ht' => hblk t' (hmem1 t' ht')
          (fun he => hnl1 (he ▸ ht')))
      have hfm2 : l2.flatMap (walkBody tasks sortFn (insert u.id cs) d) =
          l2.flatMap (walkBody tasks sortFn cs d) :=
        flatMap_congr_mem (fun t' ht' => hblk t' (hmem2 t' ht')
          (fun he => hnl2 (he ▸ ht')))
      have hbu : walkBody tasks sortFn (insert u.id cs) d u =
          [⟨u, d, hcB tasks sortFn u, false⟩] := by
        unfold walkBody
        have : collB (insert u.id cs) u = true := by simp [collB]
        rw [this]
        simp
      rw [hfm1, hfm2, hbu]
      simp [List.append_assoc, List.cons_append]
    · intro x hx
      obtain ⟨t', ht'1, hxb⟩ := List.mem_flatMap.mp hx
      have ht'c := hmem1 t' ht'1
      have hne : t' ≠ u := fun he => hnl1 (he ▸ ht'1)
      exact block_pure Hnodup Hne ht'c htm hne (sib Hne ht'c hb)
        (sib Hne hb ht'c) (mem_walkBody_cases Hne Hperm Hnodup hxb)
    · intro x hx
      obtain ⟨t', ht'1, hxb⟩ := List.mem_flatMap.mp hx
      have ht'c := hmem2 t' ht'1
      have hne : t' ≠ u := fun he => hnl2 (he ▸ ht'1)
      exact block_pure Hnodup Hne ht'c htm hne (sib Hne ht'c hb)
        (sib Hne hb ht'c) (mem_walkBody_cases Hne Hperm Hnodup hxb)
  | @step pk t0 u ht0 hexp0 hru ih =>
    intro htm htc d
    obtain ⟨dt, pre1, post1, h1, h2, hpre1, hpost1⟩ := ih htm htc (d + 1)
    have hru' : Reach tasks t0.id u := hru.toReach
    have ht0m : t0 ∈ tasks := childrenOf_mem_tasks ht0
    have hparts : hcB tasks sortFn t0 = true ∧ (!collB cs t0) = true := by
      simpa [Bool.and_eq_true] using hexp0
    have hhc0 : hcB tasks sortFn t0 = true := hparts.1
    have hcoll0 : collB cs t0 = false := by
      have hh := hparts.2
      cases hcase : collB cs t0 with
      | false => rfl
      | true => rw [hcase] at hh; simp at hh
    have hneu0 : t0 ≠ u := by
      intro he
      subst he
      exact absurd (hru'.id_length Hne) (lt_irrefl _)
    have hidneu : t0.id ≠ u.id := fun he =>
      hneu0 (uniq_id Hnodup ht0m htm he)
    have hcoll0' : collB (insert u.id cs) t0 = false := by
      have ht0nc : t0.id ∉ cs := by simpa [collB] using hcoll0
      simp [collB, Finset.mem_insert, hidneu, ht0nc]
    have hcnt : (sortedChildren tasks sortFn pk).count t0 = 1 := by
      rw [(sortedChildren_perm Hperm pk).count_eq]
      have hle1 : (childrenOf tasks pk).count t0 ≤ tasks.count t0 :=
        (List.filter_sublist tasks).count_le t0
      have hle2 : tasks.count t0 ≤ 1 :=
        List.nodup_iff_count_le_one.mp (List.Nodup.of_map _ Hnodup) t0
      have hpos : 0 < (childrenOf tasks pk).count t0 :=
        List.count_pos_iff.mpr ht0
      omega
    obtain ⟨l1, l2, hsplit, hnl1, hnl2⟩ := count_one_split hcnt
    have hmem1 : ∀ t' ∈ l1, t' ∈ childrenOf tasks pk := by
      intro t' ht'
      apply mem_sortedChildren Hperm
      rw [hsplit]
      exact List.mem_append_left _ ht'
    have hmem2 : ∀ t' ∈ l2, t' ∈ childrenOf tasks pk := by
      intro t' ht'
      apply mem_sortedChildren Hperm
      rw [hsplit]
      exact List.mem_append_right _ (List.mem_cons_of_mem _ ht')
    have hneu : ∀ t' ∈ childrenOf tasks pk, t' ≠ u := by
      intro t' ht'c he
      subst he
      exact sib Hne ht0 ht'c hru'
    have hblk : ∀ t' ∈ childrenOf tasks pk, t' ≠ t0 →
        walkBody tasks sortFn (insert u.id cs) d t' =
          walkBody tasks sortFn cs d t' := by
      intro t' ht'c hne
      have hidne : t'.id ≠ u.id := fun he =>
        (hneu t' ht'c) (uniq_id Hnodup (childrenOf_mem_tasks ht'c) htm he)
      have hcoll : collB (insert u.id cs) t' = collB cs t' := by
        simp [collB, Finset.mem_insert, hidne]
      unfold walkBody
      rw [hcoll]
      by_cases hcond : (hcB tasks sortFn t' && !collB cs t') = true
      · rw [if_pos hcond, if_pos hcond]
        have hnre : ¬ ReachE tasks sortFn cs t'.id u := fun hr =>
          not_reach_sibling_sub Hne Hnodup ht0 ht'c hne hru' hr.toReach
        rw [subFlatten_insert_eq Hne Hperm Hnodup htm t'.id (d + 1) hnre]
      · rw [if_neg hcond, if_neg hcond]
    refine ⟨dt, l1.flatMap (walkBody tasks sortFn cs d) ++
      ⟨t0, d, hcB tasks sortFn t0, true⟩ :: pre1,
      post1 ++ l2.flatMap (walkBody tasks sortFn cs d), ?_, ?_, ?_, ?_⟩
    · rw [subFlatten_eq_body Hne Hperm, hsplit, List.flatMap_append,
        List.flatMap_cons]
      have hb0 : walkBody tasks sortFn cs d t0 =
          ⟨t0, d, hcB tasks sortFn t0, true⟩ ::
            (pre1 ++ ⟨u, dt, hcB tasks sortFn u, hcB tasks sortFn u⟩ ::
              (subFlatten tasks sortFn cs u.id (dt + 1) ++ post1)) := by
        unfold walkBody
        rw [if_pos hexp0, h1, hexp0]
      rw [hb0]
      simp [List.append_assoc, List.cons_append]
    · rw [subFlatten_eq_body Hne Hperm, hsplit, List.flatMap_append,
        List.flatMap_cons]
      have hfm1 : l1.flatMap (walkBody tasks sortFn (insert u.id cs) d) =
          l1.flatMap (walkBody tasks sortFn cs d) :=
        flatMap_congr_mem (fun t' ht' => hblk t' (hmem1 t' ht')
          (fun he => hnl1 (he ▸ ht')))
      have hfm2 : l2.flatMap (walkBody tasks sortFn (insert u.id cs) d) =
          l2.flatMap (walkBody tasks sortFn cs d) :=
        flatMap_congr_mem (fun t' ht' => hblk t' (hmem2 t' ht')
          (fun he => hnl2 (he ▸ ht')))
      have hcondI : (hcB tasks sortFn t0 && !collB (insert u.id cs) t0) =
          true := by
        rw [hhc0, hcoll0']
        rfl
      have hb0 : walkBody tasks sortFn (insert u.id cs) d t0 =
          ⟨t0, d, hcB tasks sortFn t0, true⟩ ::
            (pre1 ++ ⟨u, dt, hcB tasks sortFn u, false⟩ :: post1) := by
        unfold walkBody
        rw [if_pos hcondI, h2, hcondI]
      rw [hfm1, hfm2, hb0]
      simp [List.append_assoc, List.cons_append]
    · intro x hx
      rcases List.mem_append.mp hx with hx1 | hx2
      · obtain ⟨t', ht'1, hxb⟩ := List.mem_flatMap.mp hx1
        have ht'c := hmem1 t' ht'1
        have hne0 : t' ≠ t0 := fun he => hnl1 (he ▸ ht'1)
        exact block_pure Hnodup Hne ht'c htm (hneu t' ht'c)
          (not_reach_sibling_sub Hne Hnodup ht0 ht'c hne0 hru')
          (not_reach_up Hne ht0 ht'c hru')
          (mem_walkBody_cases Hne Hperm Hnodup hxb)
      · rcases List.mem_cons.mp hx2 with rfl | hx3
        · refine ⟨fun he => hneu0 he, ?_⟩
          intro h
          have h' : Reach tasks u.id t0 := h
          have h1l := h'.id_length Hne
          have h2l := hru'.id_length Hne
          omega
        · exact hpre1 x hx3
    · intro x hx
      rcases List.mem_append.mp hx with hx1 | hx2
      · exact hpost1 x hx1
      · obtain ⟨t', ht'1, hxb⟩ := List.mem_flatMap.mp hx2
        have ht'c := hmem2 t' ht'1
        have hne0 : t' ≠ t0 := fun he => hnl2 (he ▸ ht'1)
        exact block_pure Hnodup Hne ht'c htm (hneu t' ht'c)
          (not_reach_sibling_sub Hne Hnodup ht0 ht'c hne0 hru')
          (not_reach_up Hne ht0 ht'c hru')
          (mem_walkBody_cases Hne Hperm Hnodup hxb)

/-- Keys walked with the collapse-set `cs` never lie under a collapsed node:
if `u` is emitted from the root and `s` is a collapsed bucket task, then `u`
is not a descendant of `s`. -/
theorem reachE_protects (Hne : ∀ t ∈ tasks, t.id ≠ [])
    (Hnodup : (tasks.map Task.id).Nodup) :
    ∀ (u : Task), ReachE tasks sortFn cs [] u →
      ∀ s ∈ tasks, Reach tasks s.id u → s.id ∉ cs := by
  have main : ∀ (n : Nat) (u : Task), u.id.length = n →
      ReachE tasks sortFn cs [] u →
      ∀ s ∈ tasks, Reach tasks s.id u → s.id ∉ cs := by
    intro n
    induction n using Nat.strong_induction_on with
    | _ n ih =>
      intro u hlen hre s hsm hr
      rcases hre.backE with hg1 | ⟨w, hwm, hwid, hrw, hexpw⟩
      · -- u is a root: no task key can reach it
        rcases hr.back with hg2 | ⟨w', hw'm, hw'id, _⟩
        · rw [hg1] at hg2
          exact absurd hg2.symm (Hne s hsm)
        · rw [hg1] at hw'id
          exact absurd hw'id (Hne w' hw'm)
      · have hwnc : w.id ∉ cs := by
          have hh : (!collB cs w) = true := by
            have := Bool.and_eq_true_iff.mp hexpw
            exact this.2
          simpa [collB] using hh
        rcases hr.back with hg2 | ⟨w', hw'm, hw'id, hrw'⟩
        · -- s.id = groupKey u = w.id
          have : s = w := uniq_id Hnodup hsm hwm (by rw [← hg2, hwid])
          subst this
          exact hwnc
        · have hw' : w' = w := uniq_id Hnodup hw'm hwm (by rw [hw'id, hwid])
          subst hw'
          have hwlt : w'.id.length < n := by
            have hgne : groupKey (tasks.map Task.id) u ≠ [] := by
              rw [← hwid]
              exact Hne w' hwm
            obtain ⟨hgp, _, hdot⟩ := groupKey_ne_nil hgne
            rw [hwid, hgp, ← hlen]
            exact ParentID_length_lt hdot
          exact ih w'.id.length hwlt w' rfl hrw s hsm hrw'
  exact fun u => main u.id.length u rfl

end FlattenTheory

/-! ### Board cursor invariant preservation -/

theorem visibleCols_bounds (width : Nat) :
    1 ≤ visibleCols width ∧ visibleCols width ≤ 5 := by
  simp only [visibleCols]
  split_ifs <;> omega

theorem ensure_spec (width : Nat) (c r off : Int) (h0 : 0 ≤ c) (h5 : c < 5) :
    ∃ off2, ensureBoardColumnVisible width ⟨c, r, off⟩ = ⟨c, r, off2⟩ ∧
      off2 ≤ c ∧ c < off2 + (visibleCols width : Int) := by
  obtain ⟨hvc1, hvc5⟩ := visibleCols_bounds width
  refine ⟨_, rfl, ?_, ?_⟩ <;>
    · simp only [ensureBoardColumnVisible]
      split_ifs <;> omega

theorem boardColumnCount_eq (tasks : List Task) (ready : Str → Bool)
    {col : Int} (h : 0 ≤ col ∧ col < 5) :
    boardColumnCount tasks ready col =
      (getBoardColumns tasks ready ⟨col.toNat, by omega⟩).length := by
  simp only [boardColumnCount]
  rw [dif_pos h]

theorem inv_row0 {tasks : List Task} {ready : Str → Bool} {width : Nat}
    {st : BoardNav} (h : BoardCursorInv tasks ready width st) :
    0 ≤ st.boardRow := by
  obtain ⟨h1, h2, h3, h4, h5, h6⟩ := h
  by_cases hc : 0 < boardColumnCount tasks ready st.boardColumn
  · exact (h3 hc).1
  · rw [h4 (by omega)]

theorem boardMoveLeft_inv {tasks : List Task} {ready : Str → Bool}
    {width : Nat} {st : BoardNav} (h : BoardCursorInv tasks ready width st) :
    BoardCursorInv tasks ready width (boardMoveLeft tasks ready width st) := by
  have hr0 := inv_row0 h
  obtain ⟨h1, h2, h3, h4, h5, h6⟩ := h
  unfold boardMoveLeft
  by_cases hc : st.boardColumn > 0
  · rw [if_pos hc]
    obtain ⟨off2, heq, ho1, ho2⟩ := ensure_spec width (st.boardColumn - 1)
      (if (if st.boardRow ≥ (boardColumnCount tasks ready
          (st.boardColumn - 1) : Int) then
        (boardColumnCount tasks ready (st.boardColumn - 1) : Int) - 1
      else st.boardRow) < 0 then 0
      else (if st.boardRow ≥ (boardColumnCount tasks ready
          (st.boardColumn - 1) : Int) then
        (boardColumnCount tasks ready (st.boardColumn - 1) : Int) - 1
      else st.boardRow)) st.boardColumnOffset (by omega) (by omega)
    rw [heq]
    simp only [BoardCursorInv]
    refine ⟨by omega, by omega, ?_, ?_, by omega, by omega⟩
    · intro hpos
      split_ifs <;> omega
    · intro hzero
      rw [hzero]
      split_ifs <;> omega
  · rw [if_neg hc]
    exact ⟨h1, h2, h3, h4, h5, h6⟩

theorem boardMoveRight_inv {tasks : List Task} {ready : Str → Bool}
    {width : Nat} {st : BoardNav} (h : BoardCursorInv tasks ready width st) :
    BoardCursorInv tasks ready width (boardMoveRight tasks ready width st) := by
  have hr0 := inv_row0 h
  obtain ⟨h1, h2, h3, h4, h5, h6⟩ := h
  unfold boardMoveRight
  by_cases hc : st.boardColumn < 4
  · rw [if_pos hc]
    obtain ⟨off2, heq, ho1, ho2⟩ := ensure_spec width (st.boardColumn + 1)
      (if (if st.boardRow ≥ (boardColumnCount tasks ready
          (st.boardColumn + 1) : Int) then
        (boardColumnCount tasks ready (st.boardColumn + 1) : Int) - 1
      else st.boardRow) < 0 then 0
      else (if st.boardRow ≥ (boardColumnCount tasks ready
          (st.boardColumn + 1) : Int) then
        (boardColumnCount tasks ready (st.boardColumn + 1) : Int) - 1
      else st.boardRow)) st.boardColumnOffset (by omega) (by omega)
    rw [heq]
    simp only [BoardCursorInv]
    refine ⟨by omega, by omega, ?_, ?_, by omega, by omega⟩
    · intro hpos
      split_ifs <;> omega
    · intro hzero
      rw [hzero]
      split_ifs <;> omega
  · rw [if_neg hc]
    exact ⟨h1, h2, h3, h4, h5, h6⟩

theorem boardMoveUp_inv {tasks : List Task} {ready : Str → Bool}
    {width : Nat} {st : BoardNav} (h : BoardCursorInv tasks ready width st) :
    BoardCursorInv tasks ready width (boardMoveUp st) := by
  have hr0 := inv_row0 h
  obtain ⟨h1, h2, h3, h4, h5, h6⟩ := h
  unfold boardMoveUp
  by_cases hc : st.boardRow > 0
  · rw [if_pos hc]
    refine ⟨h1, h2, ?_, ?_, h5, h6⟩
    · intro hpos
      have := h3 hpos
      simp only
      omega
    · intro hzero
      have := h4 hzero
      omega
  · rw [if_neg hc]
    exact ⟨h1, h2, h3, h4, h5, h6⟩

theorem boardMoveDown_inv {tasks : List Task} {ready : Str → Bool}
    {width : Nat} {st : BoardNav} (h : BoardCursorInv tasks ready width st) :
    BoardCursorInv tasks ready width (boardMoveDown tasks ready st) := by
  have hr0 := inv_row0 h
  obtain ⟨h1, h2, h3, h4, h5, h6⟩ := h
  unfold boardMoveDown
  simp only
  by_cases hc : st.boardRow <
      (boardColumnCount tasks ready st.boardColumn : Int) - 1
  · rw [if_pos hc]
    refine ⟨h1, h2, ?_, ?_, h5, h6⟩
    · intro _
      simp only
      omega
    · intro hzero
      rw [hzero] at hc
      omega
  · rw [if_neg hc]
    exact ⟨h1, h2, h3, h4, h5, h6⟩

theorem boardTop_inv {tasks : List Task} {ready : Str → Bool}
    {width : Nat} {st : BoardNav} (h : BoardCursorInv tasks ready width st) :
    BoardCursorInv tasks ready width (boardTop st) := by
  obtain ⟨h1, h2, h3, h4, h5, h6⟩ := h
  unfold boardTop
  by_cases hc : st.boardRow ≠ 0
  · rw [if_pos hc]
    refine ⟨h1, h2, ?_, ?_, h5, h6⟩
    · intro hpos
      have := h3 hpos
      simp only
      omega
    · intro _
      rfl
  · rw [if_neg hc]
    exact ⟨h1, h2, h3, h4, h5, h6⟩

theorem boardBottom_inv {tasks : List Task} {ready : Str → Bool}
    {width : Nat} {st : BoardNav} (h : BoardCursorInv tasks ready width st) :
    BoardCursorInv tasks ready width (boardBottom tasks ready st) := by
  obtain ⟨h1, h2, h3, h4, h5, h6⟩ := h
  unfold boardBottom
  simp only
  by_cases hc : 0 < (boardColumnCount tasks ready st.boardColumn : Int) ∧
      st.boardRow ≠ (boardColumnCount tasks ready st.boardColumn : Int) - 1
  · rw [if_pos hc]
    refine ⟨h1, h2, ?_, ?_, h5, h6⟩
    · intro _
      simp only
      omega
    · intro hzero
      rw [hzero] at hc
      omega
  · rw [if_neg hc]
    exact ⟨h1, h2, h3, h4, h5, h6⟩

theorem ensure_inv {tasks : List Task} {ready : Str → Bool}
    {width : Nat} {st : BoardNav} (h : BoardCursorInv tasks ready width st) :
    BoardCursorInv tasks ready width (ensureBoardColumnVisible width st) := by
  obtain ⟨h1, h2, h3, h4, h5, h6⟩ := h
  obtain ⟨off2, heq, ho1, ho2⟩ := ensure_spec width st.boardColumn
    st.boardRow st.boardColumnOffset h1 h2
  have hst : st = ⟨st.boardColumn, st.boardRow, st.boardColumnOffset⟩ := rfl
  rw [hst] at heq ⊢
  rw [heq]
  exact ⟨h1, h2, h3, h4, ho1, ho2⟩

theorem inv_intro (tasks : List Task) (ready : Str → Bool) (width : Nat)
    (c r off : Int) (h1 : 0 ≤ c) (h2 : c < 5)
    (h3 : 0 < boardColumnCount tasks ready c →
      0 ≤ r ∧ r < (boardColumnCount tasks ready c : Int))
    (h4 : boardColumnCount tasks ready c = 0 → r = 0)
    (h5 : off ≤ c) (h6 : c < off + (visibleCols width : Int)) :
    BoardCursorInv tasks ready width ⟨c, r, off⟩ :=
  ⟨h1, h2, h3, h4, h5, h6⟩

theorem clickCore_inv {tasks : List Task} {ready : Str → Bool} {width : Nat}
    {st : BoardNav} {mem : ClickMemory} {ac : Int} {cr : Nat} {now : Int}
    (h : BoardCursorInv tasks ready width st)
    (hw1 : st.boardColumnOffset ≤ ac)
    (hw2 : ac < st.boardColumnOffset + (visibleCols width : Int)) :
    BoardCursorInv tasks ready width
      (boardClickCore tasks ready st mem ac cr now).nav := by
  obtain ⟨h1, h2, h3, h4, h5, h6⟩ := h
  simp only [boardClickCore]
  split_ifs with hin hdc hsingle hcpos
  · obtain ⟨hrow, _, _, _⟩ := hdc
    exact inv_intro tasks ready width ac (cr : Int) st.boardColumnOffset
      (by omega) (by omega) (fun hp => ⟨by omega, by omega⟩)
      (fun hz => by omega) (by omega) (by omega)
  · exact inv_intro tasks ready width ac (cr : Int) st.boardColumnOffset
      (by omega) (by omega) (fun hp => ⟨by omega, by omega⟩)
      (fun hz => by omega) (by omega) (by omega)
  · exact inv_intro tasks ready width ac
      ((boardColumnCount tasks ready ac : Int) - 1) st.boardColumnOffset
      (by omega) (by omega) (fun hp => ⟨by omega, by omega⟩)
      (fun hz => by omega) (by omega) (by omega)
  · exact inv_intro tasks ready width ac 0 st.boardColumnOffset
      (by omega) (by omega) (fun hp => ⟨by omega, by omega⟩)
      (fun hz => by omega) (by omega) (by omega)
  · exact ⟨h1, h2, h3, h4, h5, h6⟩

theorem click_inv {tasks : List Task} {ready : Str → Bool} {width : Nat}
    {st : BoardNav} {mem : ClickMemory} {mouseX mouseY : Nat} {now : Int}
    (h : BoardCursorInv tasks ready width st) :
    BoardCursorInv tasks ready width
      (handleBoardLeftClick tasks ready width st mem mouseX mouseY now).nav := by
  have hsc2 : (if mouseX / (width / visibleCols width) ≥ visibleCols width
      then visibleCols width - 1
      else mouseX / (width / visibleCols width)) < visibleCols width := by
    obtain ⟨hvc1, hvc5⟩ := visibleCols_bounds width
    split_ifs <;> omega
  exact clickCore_inv h (by omega) (by omega)

theorem wheelUpCore_cols {tasks : List Task} {ready : Str → Bool}
    {width : Nat} {st : BoardNav} (h : BoardCursorInv tasks ready width st)
    {ac : Int} (hw1 : st.boardColumnOffset ≤ ac)
    (hw2 : ac < st.boardColumnOffset + (visibleCols width : Int)) :
    0 ≤ (boardWheelUpCore st ac).boardColumn ∧
    (boardWheelUpCore st ac).boardColumn < 5 ∧
    (boardWheelUpCore st ac).boardColumnOffset ≤
      (boardWheelUpCore st ac).boardColumn ∧
    (boardWheelUpCore st ac).boardColumn <
      (boardWheelUpCore st ac).boardColumnOffset +
        (visibleCols width : Int) := by
  obtain ⟨h1, h2, h3, h4, h5, h6⟩ := h
  unfold boardWheelUpCore
  by_cases hin : 0 ≤ ac ∧ ac < 5
  · rw [if_pos hin]
    exact ⟨hin.1, hin.2, hw1, hw2⟩
  · rw [if_neg hin]
    exact ⟨h1, h2, h5, h6⟩

theorem wheelDownCore_cols {tasks : List Task} {ready : Str → Bool}
    {width : Nat} {st : BoardNav} (h : BoardCursorInv tasks ready width st)
    {ac : Int} (hw1 : st.boardColumnOffset ≤ ac)
    (hw2 : ac < st.boardColumnOffset + (visibleCols width : Int)) :
    0 ≤ (boardWheelDownCore tasks ready st ac).boardColumn ∧
    (boardWheelDownCore tasks ready st ac).boardColumn < 5 ∧
    (boardWheelDownCore tasks ready st ac).boardColumnOffset ≤
      (boardWheelDownCore tasks ready st ac).boardColumn ∧
    (boardWheelDownCore tasks ready st ac).boardColumn <
      (boardWheelDownCore tasks ready st ac).boardColumnOffset +
        (visibleCols width : Int) := by
  obtain ⟨h1, h2, h3, h4, h5, h6⟩ := h
  unfold boardWheelDownCore
  by_cases hin : 0 ≤ ac ∧ ac < 5
  · rw [if_pos hin]
    exact ⟨hin.1, hin.2, hw1, hw2⟩
  · rw [if_neg hin]
    exact ⟨h1, h2, h5, h6⟩

/-! ### Support lemmas for the filter engine and closed-sort -/

theorem strContains_iff (hay sub : Str) :
    strContains hay sub = true ↔ ∃ pre post, hay = pre ++ sub ++ post := by
  induction hay with
  | nil =>
    simp only [strContains]
    rw [hasPre_iff]
    constructor
    · intro hp
      have hsub : sub = [] := List.prefix_nil.mp hp
      exact ⟨[], [], by simp [hsub]⟩
    · rintro ⟨pre, post, hiff⟩
      have h2 : sub = [] := by
        have hlen := congrArg List.length hiff
        simp only [List.length_nil, List.length_append] at hlen
        exact List.eq_nil_of_length_eq_zero (by omega)
      rw [h2]
  | cons h hs ih =>
    simp only [strContains, Bool.or_eq_true, hasPre_iff, ih]
    constructor
    · rintro (hpre | ⟨pre, post, rfl⟩)
      · obtain ⟨t, ht⟩ := hpre
        exact ⟨[], t, by simp [← ht]⟩
      · exact ⟨h :: pre, post, by simp⟩
    · rintro ⟨pre, post, heq⟩
      cases pre with
      | nil =>
        left
        simp only [List.nil_append] at heq
        exact ⟨post, heq.symm⟩
      | cons a pre2 =>
        right
        simp only [List.cons_append, List.cons.injEq] at heq
        exact ⟨pre2, post, heq.2⟩

theorem toLowerStr_eq_nil {q : Str} : toLowerStr q = [] ↔ q = [] := by
  unfold toLowerStr
  exact List.map_eq_nil

theorem passesTextQuery_iff (q : Str) (t : Task) :
    passesTextQuery q t = true ↔ textMatchesSpec q t := by
  unfold passesTextQuery textMatchesSpec
  simp only [Bool.or_eq_true, strContains_iff, List.isEmpty_iff,
    toLowerStr_eq_nil]
  constructor
  · rintro ((h | h) | h)
    · exact Or.inl h
    · exact Or.inr (Or.inl h)
    · exact Or.inr (Or.inr h)
  · rintro (h | h | h)
    · exact Or.inl (Or.inl h)
    · exact Or.inl (Or.inr h)
    · exact Or.inr h

theorem lessClosed_false_iff (a b : Task) :
    lessClosed b a = false ↔
      (b.closedAt = none ∨
        ∃ ta tb, a.closedAt = some ta ∧ b.closedAt = some tb ∧ tb ≤ ta) := by
  unfold lessClosed
  cases hb : b.closedAt with
  | none => cases ha : a.closedAt <;> simp
  | some tb =>
    cases ha : a.closedAt with
    | none => simp
    | some ta => simp [Int.not_lt]

theorem str_ne_c1 : str "closed" ≠ str "open" := by decide

theorem str_ne_c2 : str "closed" ≠ str "in_progress" := by decide

theorem str_ne_c3 : str "in_progress" ≠ str "open" := by decide


/-! ## The claims -/

/-- **C7**: `ParentID` returns the substring before the last dot (empty when
there is no dot), `Depth` counts the dots; hence `Parent(p.c) = p` and
`Depth(p.c) = Depth(p) + 1` for a dot-free final segment `c`, and
`IsDirectChildOf child parent` holds iff `child = parent ++ "." ++ r` with
`r` containing no further dot. -/
theorem claim_C7_identifier_hierarchy :
    (∀ id : Str, ('.' ∉ id → ParentID id = []) ∧
      ('.' ∈ id → ∃ s, id = ParentID id ++ '.' :: s ∧ '.' ∉ s)) ∧
    (∀ id : Str, Depth id = id.count '.') ∧
    (∀ p c : Str, '.' ∉ c →
      ParentID (p ++ '.' :: c) = p ∧ Depth (p ++ '.' :: c) = Depth p + 1) ∧
    (∀ child parent : Str, IsDirectChildOf child parent = true ↔
      ∃ r, child = parent ++ '.' :: r ∧ '.' ∉ r) :=
  ⟨fun _ => ⟨ParentID_no_dot, ParentID_decomp⟩, fun _ => rfl,
    fun _ _ hc => ⟨ParentID_append hc, Depth_append hc⟩, IsDirectChildOf_iff⟩

/-- Witness for C7 at concrete identifiers. -/
theorem claim_C7_witness :
    ParentID (str "bb-abc" ++ '.' :: str "1") = str "bb-abc" ∧
    Depth (str "bb-abc.1" ++ '.' :: str "2") = Depth (str "bb-abc.1") + 1 ∧
    IsDirectChildOf (str "bb-abc.1.2") (str "bb-abc.1") = true :=
  ⟨(claim_C7_identifier_hierarchy.2.2.1 (str "bb-abc") (str "1")
      (by decide)).1,
    (claim_C7_identifier_hierarchy.2.2.1 (str "bb-abc.1") (str "2")
      (by decide)).2,
    (claim_C7_identifier_hierarchy.2.2.2 (str "bb-abc.1.2")
      (str "bb-abc.1")).mpr ⟨str "2", by decide, by decide⟩⟩

/-- **C9** counterexample: with a load already in flight
(`loading = true`), processing the explicit refresh key still invokes
`loadTasks` — the loading-flag guard exists only on the poll tick, so the
claim "neither the tick nor the refresh key issues another load while one
is outstanding" is false at this state. -/
theorem claim_C9_counterexample : (processRefreshKey true).2 = true := rfl

/-- **C9** (amended): the poll tick is suppressed while a load is in
flight, and otherwise sets the loading flag and invokes `loadTasks`; the
explicit refresh key always invokes `loadTasks`, regardless of the flag
(and leaves the flag unchanged); a completed load clears the flag. -/
theorem claim_C9_refresh_guard :
    processTick true = (true, false) ∧ processTick false = (true, true) ∧
    (∀ b, processRefreshKey b = (b, true)) ∧
    (∀ b, processTasksLoaded b = false) :=
  ⟨rfl, rfl, fun _ => rfl, fun _ => rfl⟩

/-- **C6**: the Closed panel ignores the active sort mode (it is always
flattened with `sortClosedTasks`), and every sibling group it shows is a
permutation of the raw group that is sorted by closed-timestamp
descending, with issues lacking a closed timestamp last. -/
theorem claim_C6_closed_sort :
    (∀ tasks q mode cs m1 m2, closedPanelItems tasks q mode m1 cs =
      closedPanelItems tasks q mode m2 cs) ∧
    (∀ l, List.Perm (sortClosedTasks l) l) ∧
    (∀ (tasks : List Task) (pk : Str),
      List.Perm (sortedChildren tasks sortClosedTasks pk)
        (childrenOf tasks pk)) ∧
    (∀ (tasks : List Task) (pk : Str),
      (sortedChildren tasks sortClosedTasks pk).Pairwise (fun a b =>
        b.closedAt = none ∨
          ∃ ta tb, a.closedAt = some ta ∧ b.closedAt = some tb ∧
            tb ≤ ta)) := by
  refine ⟨fun _ _ _ _ _ _ => rfl, sortByLess_perm lessClosed,
    fun tasks pk => sortedChildren_perm (sortByLess_perm lessClosed) pk,
    fun tasks pk => ?_⟩
  unfold sortedChildren
  cases h : childrenOf tasks pk with
  | nil => exact List.Pairwise.nil
  | cons x xs =>
    exact (sortClosedTasks_pairwise (x :: xs)).imp
      (fun hab => (lessClosed_false_iff _ _).mp hab)

/-- **C1**: under the data-model statuses, the five board columns computed
by `getBoardColumns` partition the snapshot — the column lengths sum to the
snapshot size, no task is in two columns, and each task's column is
determined by: closed → done (4); in_progress → in-progress (3); open and
blocked → blocked (0); open, unblocked and ready → ready (2); open,
unblocked and not ready → open (1). -/
theorem claim_C1_board_partition (tasks : List Task) (ready : Str → Bool)
    (hstatus : ∀ t ∈ tasks, t.status = str "open" ∨
      t.status = str "in_progress" ∨ t.status = str "closed") :
    (∑ i : Fin 5, (getBoardColumns tasks ready i).length) = tasks.length ∧
    (∀ (i j : Fin 5) (t : Task), t ∈ getBoardColumns tasks ready i →
      t ∈ getBoardColumns tasks ready j → i = j) ∧
    (∀ t ∈ tasks,
      (t.status = str "closed" → t ∈ getBoardColumns tasks ready 4) ∧
      (t.status = str "in_progress" → t ∈ getBoardColumns tasks ready 3) ∧
      (t.status = str "open" → t.IsBlocked = true →
        t ∈ getBoardColumns tasks ready 0) ∧
      (t.status = str "open" → t.IsBlocked = false → ready t.id = true →
        t ∈ getBoardColumns tasks ready 2) ∧
      (t.status = str "open" → t.IsBlocked = false → ready t.id = false →
        t ∈ getBoardColumns tasks ready 1)) := by
  refine ⟨?_, ?_, ?_⟩
  · induction tasks with
    | nil => simp [getBoardColumns]
    | cons t l ih =>
      have hs := hstatus t (List.mem_cons_self t l)
      have hl : ∀ u ∈ l, u.status = str "open" ∨
          u.status = str "in_progress" ∨ u.status = str "closed" :=
        fun u hu => hstatus u (List.mem_cons_of_mem _ hu)
      obtain ⟨i0, hi0⟩ : ∃ i0 : Fin 5, boardColumnIndex ready t = some i0 := by
        unfold boardColumnIndex
        rcases hs with h | h | h
        · rw [if_pos h]
          split_ifs <;> exact ⟨_, rfl⟩
        · rw [if_neg (by rw [h]; exact str_ne_c3), if_pos h]
          exact ⟨_, rfl⟩
        · rw [if_neg (by rw [h]; exact str_ne_c1),
            if_neg (by rw [h]; exact str_ne_c2), if_pos h]
          exact ⟨_, rfl⟩
      have hstep : ∀ i : Fin 5, (getBoardColumns (t :: l) ready i).length =
          (if i = i0 then 1 else 0) + (getBoardColumns l ready i).length := by
        intro i
        unfold getBoardColumns
        rw [List.filter_cons]
        by_cases hii : i = i0
        · subst hii
          simp [hi0]
          omega
        · have hne : ¬ (boardColumnIndex ready t = some i) := by
            rw [hi0]
            simp only [Option.some.injEq]
            exact fun he => hii he.symm
          simp [hne, hii]
      rw [Finset.sum_congr rfl (fun i _ => hstep i), Finset.sum_add_distrib,
        Finset.sum_ite_eq' Finset.univ i0 (fun _ => 1)]
      simp [ih hl]
      omega
  · intro i j t hti htj
    unfold getBoardColumns at hti htj
    rw [List.mem_filter] at hti htj
    have h1 := of_decide_eq_true hti.2
    have h2 := of_decide_eq_true htj.2
    rw [h1] at h2
    exact Option.some.inj h2
  · intro t htm
    have hmem : ∀ i : Fin 5, boardColumnIndex ready t = some i →
        t ∈ getBoardColumns tasks ready i := by
      intro i hi
      unfold getBoardColumns
      rw [List.mem_filter]
      exact ⟨htm, decide_eq_true hi⟩
    refine ⟨?_, ?_, ?_, ?_, ?_⟩
    · intro h1
      apply hmem
      unfold boardColumnIndex
      rw [if_neg (by rw [h1]; exact str_ne_c1),
        if_neg (by rw [h1]; exact str_ne_c2), if_pos h1]
    · intro h1
      apply hmem
      unfold boardColumnIndex
      rw [if_neg (by rw [h1]; exact str_ne_c3), if_pos h1]
    · intro h1 h2
      apply hmem
      unfold boardColumnIndex
      rw [if_pos h1, if_pos h2]
    · intro h1 h2 h3
      apply hmem
      unfold boardColumnIndex
      rw [if_pos h1, if_neg (by rw [h2]; exact Bool.false_ne_true), if_pos h3]
    · intro h1 h2 h3
      apply hmem
      unfold boardColumnIndex
      rw [if_pos h1, if_neg (by rw [h2]; exact Bool.false_ne_true),
        if_neg (by rw [h3]; exact Bool.false_ne_true)]

/-- Witness for C1 on a concrete three-task snapshot. -/
theorem claim_C1_witness :
    (∑ i : Fin 5,
      (getBoardColumns [c1Blocked, c1InProg, c1Closed]
        (fun _ => false) i).length) =
      ([c1Blocked, c1InProg, c1Closed] : List Task).length :=
  (claim_C1_board_partition [c1Blocked, c1InProg, c1Closed]
    (fun _ => false) (by decide)).1


/-- **C3**: a snapshot task lands in the bucket named `status` iff it passes
the text filter (empty query, or case-insensitive substring of title or
id), passes the preset filter (All: always; Open-only: not closed;
Closed-only: closed; Ready-only: not closed and zero blockers), and its
status equals that bucket name; and on the snapshot
`{A open, A.1 open, A.2 closed}` with preset Open-only the flattened Open
bucket is exactly `[A, A.1]`. -/
theorem claim_C3_distribute :
    (∀ (tasks : List Task) (q : Str) (mode : FilterMode) (t : Task)
      (status : Str),
      t ∈ bucketTasks tasks q mode status ↔
        t ∈ tasks ∧ textMatchesSpec q t ∧ presetSpec mode t ∧
          t.status = status) ∧
    (flattenTree
        (bucketTasks [exA, exA1, exA2] [] FilterMode.openOnly (str "open"))
        (∅ : CollapseSet) exSort).map TaskItem.task = [exA, exA1] := by
  constructor
  · intro tasks q mode t status
    have hpm : passesFilterMode mode t = true ↔ presetSpec mode t := by
      cases mode <;>
        simp [passesFilterMode, presetSpec, List.length_pos]
    unfold bucketTasks
    rw [List.mem_filter]
    simp only [Bool.and_eq_true, decide_eq_true_eq]
    constructor
    · rintro ⟨h1, ⟨h2, h3⟩, h4⟩
      exact ⟨h1, (passesTextQuery_iff _ _).mp h2, hpm.mp h3, h4⟩
    · rintro ⟨h1, h2, h3, h4⟩
      exact ⟨h1, ⟨(passesTextQuery_iff _ _).mpr h2, hpm.mpr h3⟩, h4⟩
  · decide

/-- **C8** counterexample: with panel item counts
(in-progress, open, closed) = (0, 0, 1), cycling forward from the Closed
panel lands on the empty Open panel although the Closed panel is
non-empty — `getVisiblePanels` always keeps Open and Closed in the
rotation, so the cycle does not skip every empty panel. -/
theorem claim_C8_counterexample :
    cyclePanelFocus (panelCount (0, 0, 1) PanelFocus.inProgress)
        PanelFocus.closedPanel 1 = PanelFocus.openPanel ∧
    panelCount (0, 0, 1) PanelFocus.openPanel = 0 ∧
    0 < panelCount (0, 0, 1) PanelFocus.closedPanel := by
  refine ⟨by decide, rfl, by decide⟩

/-- **C8** (amended): `cyclePanelFocus` recomputes the visible-panel list
from the current data each cycle and lands inside it; the In-Progress panel
is skipped when it has zero items; the rotation wraps around (from Closed
forward to the first visible panel).  Open and Closed stay in the rotation
even when empty. -/
theorem claim_C8_cycle_focus (ip : Nat) (focused : PanelFocus)
    (direction : Int) (hdir : direction = 1 ∨ direction = -1) :
    cyclePanelFocus ip focused direction ∈ getVisiblePanels ip ∧
    (ip = 0 → cyclePanelFocus ip focused direction ≠ PanelFocus.inProgress) ∧
    cyclePanelFocus 0 PanelFocus.closedPanel 1 = PanelFocus.openPanel ∧
    (0 < ip →
      cyclePanelFocus ip PanelFocus.closedPanel 1 = PanelFocus.inProgress) := by
  have hsplit : ip = 0 ∨ 0 < ip := by omega
  rcases hsplit with rfl | hip
  · rcases hdir with rfl | rfl <;> cases focused <;>
      exact ⟨by decide, fun _ => by decide, by decide,
        fun hcon => absurd hcon (by omega)⟩
  · have hvis : getVisiblePanels ip = [PanelFocus.inProgress,
        PanelFocus.openPanel, PanelFocus.closedPanel] := by
      simp [getVisiblePanels, hip]
    refine ⟨?_, fun hcon => absurd hcon (by omega), by decide, fun _ => ?_⟩
    · simp only [cyclePanelFocus, hvis]
      rcases hdir with rfl | rfl <;> cases focused <;> decide
    · simp only [cyclePanelFocus, hvis]
      decide

/-- Witness for C8 at a concrete non-empty In-Progress count. -/
theorem claim_C8_witness :
    cyclePanelFocus 3 PanelFocus.openPanel 1 ∈ getVisiblePanels 3 :=
  (claim_C8_cycle_focus 3 PanelFocus.openPanel 1 (Or.inl rfl)).1

/-- **C4**: a left click resolving to an existing card position
`(ac, cr)` fires the confirm/open action iff the recorded click was at the
same `(column, row)` and happened less than 300 ms earlier; otherwise the
click only moves the selection to `(ac, cr)` and records
`(now, ac, cr)` for future comparison.  (`0 < width` rules out the
degenerate terminal in which the Go code would divide by zero.) -/
theorem claim_C4_double_click (tasks : List Task) (ready : Str → Bool)
    (width : Nat) (st : BoardNav) (mem : ClickMemory)
    (mouseX mouseY : Nat) (now : Int) (ac : Int) (cr : Nat)
    (hw : 0 < width)
    (hac : ac = st.boardColumnOffset +
      ((if mouseX / (width / visibleCols width) ≥ visibleCols width
        then visibleCols width - 1
        else mouseX / (width / visibleCols width) : Nat) : Int))
    (hcr : cr = (mouseY - 1 - 1) / 4)
    (hin : 0 ≤ ac ∧ ac < 5)
    (hvalid : cr < boardColumnCount tasks ready ac) :
    ((handleBoardLeftClick tasks ready width st mem mouseX mouseY
        now).openDetail = true ↔
      (ac = mem.lastClickColumn ∧ (cr : Int) = mem.lastClickRow ∧
        now - mem.lastClickTime < doubleClickThresholdMs)) ∧
    ((handleBoardLeftClick tasks ready width st mem mouseX mouseY
        now).openDetail = false →
      (handleBoardLeftClick tasks ready width st mem mouseX mouseY
        now).nav.boardColumn = ac ∧
      (handleBoardLeftClick tasks ready width st mem mouseX mouseY
        now).nav.boardRow = (cr : Int) ∧
      (handleBoardLeftClick tasks ready width st mem mouseX mouseY
        now).mem = ⟨now, ac, (cr : Int)⟩) := by
  have hone : handleBoardLeftClick tasks ready width st mem mouseX mouseY now
      = boardClickCore tasks ready st mem ac cr now := by
    simp only [handleBoardLeftClick]
    rw [← hac, ← hcr]
  rw [hone]
  simp only [boardClickCore]
  rw [if_pos hin]
  split_ifs with hdc
  · exact ⟨⟨fun _ => ⟨hdc.2.1, hdc.2.2.1, hdc.2.2.2⟩, fun _ => rfl⟩,
      fun hcon => hcon.elim⟩
  · exact ⟨⟨False.elim, fun hrhs => absurd ⟨hvalid, hrhs⟩ hdc⟩,
      fun _ => ⟨rfl, rfl, rfl⟩⟩

/-- Witness for C4: a second click on the same ready-column card 150 ms
after the first confirms; 400 ms after, it is a fresh single click. -/
theorem claim_C4_witness :
    (handleBoardLeftClick [c4TaskA, c4TaskB] (fun _ => true) 150 ⟨0, 0, 0⟩
      ⟨1000, 2, 1⟩ 60 6 1150).openDetail = true ∧
    (handleBoardLeftClick [c4TaskA, c4TaskB] (fun _ => true) 150 ⟨0, 0, 0⟩
      ⟨1000, 2, 1⟩ 60 6 1400).openDetail = false := by
  constructor
  · exact (claim_C4_double_click [c4TaskA, c4TaskB] (fun _ => true) 150
      ⟨0, 0, 0⟩ ⟨1000, 2, 1⟩ 60 6 1150 2 1 (by decide) (by decide)
      (by decide) (by decide) (by decide)).1.mpr (by decide)
  · cases hb : (handleBoardLeftClick [c4TaskA, c4TaskB] (fun _ => true) 150
        ⟨0, 0, 0⟩ ⟨1000, 2, 1⟩ 60 6 1400).openDetail with
    | false => rfl
    | true =>
      exact absurd ((claim_C4_double_click [c4TaskA, c4TaskB]
        (fun _ => true) 150 ⟨0, 0, 0⟩ ⟨1000, 2, 1⟩ 60 6 1400 2 1 (by decide)
        (by decide) (by decide) (by decide) (by decide)).1.mp hb) (by decide)

/-- **C5** counterexample: from the valid state (column 2, row 2, offset
0) over a board whose Ready column holds three cards, a plain mouse-wheel
scroll over the (empty) Blocked column focuses that column with row 1 —
the wheel cases of `handleBoardMouse` do not clamp the row to the new
column's length, so the row part of the cursor invariant fails and the
claim is false for mouse-wheel mutations. -/
theorem claim_C5_counterexample :
    BoardCursorInv [c4TaskA, c4TaskB, c5TaskC] (fun _ => true) 150
      ⟨2, 2, 0⟩ ∧
    handleBoardWheelUp 150 ⟨2, 2, 0⟩ 0 = ⟨0, 1, 0⟩ ∧
    boardColumnCount [c4TaskA, c4TaskB, c5TaskC] (fun _ => true) 0 = 0 ∧
    ¬ BoardCursorInv [c4TaskA, c4TaskB, c5TaskC] (fun _ => true) 150
      (handleBoardWheelUp 150 ⟨2, 2, 0⟩ 0) := by
  refine ⟨?_, by decide, by decide, ?_⟩
  · simp only [BoardCursorInv]
    decide
  · simp only [BoardCursorInv]
    decide

/-- **C5** (amended): the key-driven cursor mutations (column moves, which
clamp the row and re-ensure visibility; row moves; top/bottom jumps),
`ensureBoardColumnVisible` itself, the left-click handler, and the
Ctrl/horizontal wheel cases (whose code is verbatim that of the column key
moves) preserve the full cursor invariant — column in `[0,5)`, row within
the (possibly empty) current column, offset window containing the focused
column.  The plain mouse-wheel cases preserve only the column-range and
offset-window parts: they focus the column under the pointer and move the
row by one without clamping it to the new column's length, so the row
bound can fail (see the counterexample). -/
theorem claim_C5_cursor_invariants (tasks : List Task) (ready : Str → Bool)
    (width : Nat) (st : BoardNav) (mem : ClickMemory)
    (mouseX mouseY : Nat) (now : Int)
    (h : BoardCursorInv tasks ready width st) :
    BoardCursorInv tasks ready width (boardMoveLeft tasks ready width st) ∧
    BoardCursorInv tasks ready width (boardMoveRight tasks ready width st) ∧
    BoardCursorInv tasks ready width (boardMoveUp st) ∧
    BoardCursorInv tasks ready width (boardMoveDown tasks ready st) ∧
    BoardCursorInv tasks ready width (boardTop st) ∧
    BoardCursorInv tasks ready width (boardBottom tasks ready st) ∧
    BoardCursorInv tasks ready width (ensureBoardColumnVisible width st) ∧
    BoardCursorInv tasks ready width
      (handleBoardLeftClick tasks ready width st mem mouseX mouseY
        now).nav ∧
    (0 ≤ (handleBoardWheelUp width st mouseX).boardColumn ∧
      (handleBoardWheelUp width st mouseX).boardColumn < 5 ∧
      (handleBoardWheelUp width st mouseX).boardColumnOffset ≤
        (handleBoardWheelUp width st mouseX).boardColumn ∧
      (handleBoardWheelUp width st mouseX).boardColumn <
        (handleBoardWheelUp width st mouseX).boardColumnOffset +
          (visibleCols width : Int)) ∧
    (0 ≤ (handleBoardWheelDown tasks ready width st mouseX).boardColumn ∧
      (handleBoardWheelDown tasks ready width st
        mouseX).boardColumn < 5 ∧
      (handleBoardWheelDown tasks ready width st
          mouseX).boardColumnOffset ≤
        (handleBoardWheelDown tasks ready width st mouseX).boardColumn ∧
      (handleBoardWheelDown tasks ready width st mouseX).boardColumn <
        (handleBoardWheelDown tasks ready width st
            mouseX).boardColumnOffset +
          (visibleCols width : Int)) := by
  have hsc2 : (if mouseX / (width / visibleCols width) ≥ visibleCols width
      then visibleCols width - 1
      else mouseX / (width / visibleCols width)) < visibleCols width := by
    obtain ⟨hvc1, hvc5⟩ := visibleCols_bounds width
    split_ifs <;> omega
  exact ⟨boardMoveLeft_inv h, boardMoveRight_inv h, boardMoveUp_inv h,
    boardMoveDown_inv h, boardTop_inv h, boardBottom_inv h, ensure_inv h,
    click_inv h, wheelUpCore_cols h (by omega) (by omega),
    wheelDownCore_cols h (by omega) (by omega)⟩

/-- Witness for C5 on a concrete valid state. -/
theorem claim_C5_witness :
    BoardCursorInv [] (fun _ => false) 100 ⟨0, 0, 0⟩ ∧
    BoardCursorInv [] (fun _ => false) 100
      (boardMoveRight [] (fun _ => false) 100 ⟨0, 0, 0⟩) :=
  ⟨by simp only [BoardCursorInv]; decide,
    (claim_C5_cursor_invariants [] (fun _ => false) 100 ⟨0, 0, 0⟩
      ⟨0, 0, 0⟩ 0 0 0 (by simp only [BoardCursorInv]; decide)).2.1⟩


/-- **C2** counterexample: on the bucket `[A, A.1, A.1.1]` with `A.1`
already marked collapsed, additionally marking `A` collapsed removes
exactly one item from the flattened sequence (`[A, A.1]` becomes `[A]`),
yet `A` has two distinct transitive descendants (`A.1` and `A.1.1`) — so
collapsing a node does not remove "exactly the count of all its transitive
descendants" when a descendant is itself collapsed. -/
theorem claim_C2_counterexample :
    (flattenTree [exA, exA1, exA11] {str "A.1"} exSort).length = 2 ∧
    (flattenTree [exA, exA1, exA11]
      (insert (str "A") {str "A.1"}) exSort).length = 1 ∧
    Reach [exA, exA1, exA11] (str "A") exA1 ∧
    Reach [exA, exA1, exA11] (str "A") exA11 ∧
    exA1 ≠ exA11 := by
  have h1 : exA1 ∈ childrenOf [exA, exA1, exA11] (str "A") := by decide
  have h2 : exA11 ∈ childrenOf [exA, exA1, exA11] (str "A.1") := by decide
  exact ⟨by decide, by decide, Reach.base h1,
    Reach.step h1 (Reach.base h2), by decide⟩

/-- **C2** (amended): marking a visible, not-yet-collapsed node `tgt` as
collapsed removes from the flattened sequence exactly `tgt`'s *visible*
subtree block (every element of which is a transitive descendant of
`tgt`), flips `tgt`'s expanded flag, and leaves the surrounding items —
none of which are `tgt` or descendants of `tgt` — untouched; unmarking
restores the original sequence; and while `tgt` is marked, no descendant
of `tgt` is emitted at all.  Hypotheses: identifiers in the bucket are
non-empty and duplicate-free, and the sort pass permutes each sibling
group. -/
theorem claim_C2_collapse (tasks : List Task)
    (sortFn : List Task → List Task) (cs : CollapseSet)
    (Hne : ∀ t ∈ tasks, t.id ≠ []) (Hperm : ∀ l, List.Perm (sortFn l) l)
    (Hnodup : (tasks.map Task.id).Nodup) (tgt : Task)
    (hre : ReachE tasks sortFn cs [] tgt) (htm : tgt ∈ tasks)
    (hnc : tgt.id ∉ cs) :
    (∃ dt pre post,
      flattenTree tasks cs sortFn =
        pre ++ ⟨tgt, dt, hcB tasks sortFn tgt, hcB tasks sortFn tgt⟩ ::
          (subFlatten tasks sortFn cs tgt.id (dt + 1) ++ post) ∧
      flattenTree tasks (insert tgt.id cs) sortFn =
        pre ++ ⟨tgt, dt, hcB tasks sortFn tgt, false⟩ :: post ∧
      (∀ x ∈ subFlatten tasks sortFn cs tgt.id (dt + 1),
        Reach tasks tgt.id x.task) ∧
      (∀ x ∈ pre, x.task ≠ tgt ∧ ¬ Reach tasks tgt.id x.task) ∧
      (∀ x ∈ post, x.task ≠ tgt ∧ ¬ Reach tasks tgt.id x.task)) ∧
    flattenTree tasks ((insert tgt.id cs).erase tgt.id) sortFn =
      flattenTree tasks cs sortFn ∧
    (∀ u : Task, Reach tasks tgt.id u →
      u ∉ (flattenTree tasks (insert tgt.id cs) sortFn).map
        TaskItem.task) := by
  obtain ⟨dt, pre, post, h1, h2, hpre, hpost⟩ :=
    subFlatten_collapse_decomp Hne Hperm Hnodup [] tgt hre htm hnc 0
  refine ⟨⟨dt, pre, post, ?_, ?_, ?_, hpre, hpost⟩, ?_, ?_⟩
  · rw [flattenTree_eq Hne Hperm]
    exact h1
  · rw [flattenTree_eq Hne Hperm]
    exact h2
  · intro x hx
    exact (mem_subFlatten_reachE Hne Hperm Hnodup hx).toReach
  · rw [Finset.erase_insert hnc]
  · intro u hru hmem
    rw [flattenTree_eq Hne Hperm] at hmem
    obtain ⟨x, hxmem, hxeq⟩ := List.mem_map.mp hmem
    have hreu : ReachE tasks sortFn (insert tgt.id cs) [] u := by
      have hmm := mem_subFlatten_reachE Hne Hperm Hnodup hxmem
      rwa [hxeq] at hmm
    exact (reachE_protects Hne Hnodup u hreu tgt htm hru)
      (Finset.mem_insert_self tgt.id cs)

/-- Witness for C2: collapsing `A` in the bucket `[A, A.1]` and
immediately un-collapsing it restores the original flattened sequence. -/
theorem claim_C2_witness :
    flattenTree [exA, exA1]
      ((insert (str "A") (∅ : CollapseSet)).erase (str "A")) exSort =
      flattenTree [exA, exA1] (∅ : CollapseSet) exSort := by
  have h := claim_C2_collapse [exA, exA1] exSort ∅ (by decide)
    (fun l => sortByLess_perm _ l) (by decide) exA
    (ReachE.base (by decide)) (by decide) (by decide)
  exact h.2.1

/-- **C10** counterexample: the bucket `[A, A, A.1]` with a duplicated
identifier flattens (with empty collapse-set) to four items — each copy of
`A` re-emits the `A.1` subtree — so a task can appear more than once and
the claim fails "for every input list of tasks". -/
theorem claim_C10_counterexample :
    (flattenTree [exA, exA, exA1] (∅ : CollapseSet) exSort).length = 4 ∧
    [exA, exA, exA1].length = 3 := by
  exact ⟨by decide, rfl⟩

/-- **C10** (amended): with the empty collapse-set, provided the bucket's
identifiers are non-empty and duplicate-free and the sort pass permutes
each sibling group, `flattenTree` emits every task of the bucket exactly
once: the emitted task sequence is a permutation of the bucket (in
particular, tasks whose parent identifier is absent from the bucket are
emitted as roots). -/
theorem claim_C10_flatten_perm (tasks : List Task)
    (sortFn : List Task → List Task)
    (Hne : ∀ t ∈ tasks, t.id ≠ [])
    (Hnodup : (tasks.map Task.id).Nodup)
    (Hperm : ∀ l, List.Perm (sortFn l) l) :
    List.Perm
      ((flattenTree tasks (∅ : CollapseSet) sortFn).map TaskItem.task)
      tasks :=
  flattenTree_perm_empty Hne Hnodup Hperm

/-- Witness for C10: a bucket of two orphan tasks (`A.2` and `A.1.1`,
whose parents are absent) flattens to a permutation of itself. -/
theorem claim_C10_witness :
    List.Perm
      ((flattenTree [exA2, exA11] (∅ : CollapseSet) exSort).map
        TaskItem.task)
      [exA2, exA11] :=
  claim_C10_flatten_perm [exA2, exA11] exSort (by decide) (by decide)
    (fun l => sortByLess_perm _ l)


end Lazybeads
